import Mathlib

/-!
Shallow embedding of the souffle AST-to-RAM clause translator
(`ast2ram/ClauseTranslator`), together with proofs about its behaviour.

The embedding follows the source file function by function.  External
collaborators that are not part of the repository snapshot (the value and
constraint translators, the value index, name mapping, AST utility helpers)
are modelled from the specification document and are marked as such in
their doc comments.
-/

namespace Souffle

/-! ## Relation names

The host translator supplies three name-mapping functions
(`getConcreteRelationName`, `getDeltaRelationName`, `getNewRelationName`).
Their formatting is external to the translation unit; the specification only
requires the three images to be pairwise distinct for every qualified name,
which the three constructors below guarantee. -/

inductive RelName where
  | concrete (q : String)
  | delta (q : String)
  | new (q : String)
deriving DecidableEq, Repr

/-- Mapping used by the translator for a relation's concrete (full) version. -/
def getConcreteRelationName (q : String) : RelName := RelName.concrete q

/-- Mapping used by the translator for a relation's delta version. -/
def getDeltaRelationName (q : String) : RelName := RelName.delta q

/-- Mapping used by the translator for a relation's new version. -/
def getNewRelationName (q : String) : RelName := RelName.new q

/-! ## AST data model -/

/-- Final type resolved for a numeric constant (`ast::NumericConstant::Type`). -/
inductive NumType where
  | int
  | uint
  | float
deriving DecidableEq, Repr

/-- Functor operations relevant to generator lowering (`FunctorOp`); every
functor operation that is not one of the three range variants is collapsed
into `other`, which the lowering treats as the fatal default case. -/
inductive FunctorOp where
  | range
  | urange
  | frange
  | other
deriving DecidableEq, Repr

/-- Aggregate operation carried by an aggregator node (`AggregateOp`). -/
inductive AggTy where
  | count
  | sum
  | min
  | max
  | mean
deriving DecidableEq, Repr

/-- Base operator of an AST binary constraint.  Only equality is
distinguished (`isEqConstraint`); all the other comparison operators behave
identically in the translation unit and are collapsed into `lt` / `other`. -/
inductive AstBinOp where
  | eq
  | lt
  | other
deriving DecidableEq, Repr

mutual
/-- AST argument algebra (`ast::Argument`).  `id` fields model C++ object
identity (node addresses) where the source compares or keys by pointer.
The payload of a numeric constant is modelled as the already-parsed integer
(the source stores the digit string and parses it per final type in
`getConstantRamRepresentation`; the parse itself involves no logic of this
translation unit). -/
inductive Argument where
  | var (name : String)
  | unnamed
  | numericConstant (value : Int) (finalType : Option NumType)
  | stringConstant (s : String)
  | nilConstant
  | recordInit (id : Nat) (args : List Argument)
  | intrinsicFunctor (id : Nat) (finalOp : Option FunctorOp) (multiResult : Bool)
      (args : List Argument)
  | aggregator (id : Nat) (finalType : AggTy) (target : Option Argument)
      (body : List Literal)

/-- AST body literal (`ast::Literal`): positive atom, negated atom, or
binary constraint. -/
inductive Literal where
  | atom (a : Atom)
  | negation (a : Atom)
  | binaryConstraint (op : AstBinOp) (lhs rhs : Argument)

/-- AST atom (`ast::Atom`): a qualified relation name and arguments.  `id`
models the node's C++ address. -/
inductive Atom where
  | mk (qname : String) (id : Nat) (args : List Argument)
end

/-- Qualified name of an atom's relation. -/
def Atom.qname : Atom → String
  | .mk q _ _ => q

/-- Identity of an atom node (models its C++ address). -/
def Atom.id : Atom → Nat
  | .mk _ i _ => i

/-- Arguments of an atom. -/
def Atom.args : Atom → List Argument
  | .mk _ _ as => as

/-- Arity of an atom (`ast::Atom::getArity` returns the argument count). -/
def Atom.arity (a : Atom) : Nat := a.args.length

/-- Execution plan of a clause: a map from version index to a 1-based
permutation of body atom positions, modelled as an association list with
the map's unique-key reading. -/
abbrev Plan : Type := List (Int × List Nat)

/-- AST clause: head atom, body literals in source order, optional execution
plan, and its source location (used only in log/debug strings). -/
structure Clause where
  head : Atom
  body : List Literal
  plan : Option Plan := none
  srcLoc : String := ""

/-- Body literals that are positive atoms
(`ast::getBodyLiterals<ast::Atom>`). -/
def getAtoms (c : Clause) : List Atom :=
  c.body.filterMap (fun l =>
    match l with
    | .atom a => some a
    | _ => none)

/-- Modelled from the spec: `isFact` from `ast/utility/Utils` (not under
src/).  A fact is a clause with an empty body (spec §1, §3: "two clause
shapes — ground facts and rules"; §4.4 "Assertion: the clause has no
body"). -/
def isFact (c : Clause) : Bool := c.body.isEmpty

/-- Modelled from the spec: `isRule` from `ast/utility/Utils` (not under
src/): a clause that is not a fact. -/
def isRule (c : Clause) : Bool := !(isFact c)

/-! ## RAM output model (collaborator node kinds, spec §6) -/

/-- Nested intrinsic operation kinds (`ram::NestedIntrinsicOp`). -/
inductive NestedOp where
  | range
  | urange
  | frange
deriving DecidableEq, Repr

/-- RAM binary constraint operators (`BinaryConstraintOp`); only the
equality pair matters to the translation unit. -/
inductive RamBinOp where
  | EQ
  | FEQ
  | LT
  | OTHER
deriving DecidableEq, Repr

/-- RAM expressions. -/
inductive Expression where
  | tupleElement (level : Nat) (element : Nat)
  | signedConstant (v : Int)
  | unsignedConstant (v : Int)
  | floatConstant (v : Int)
  | undefValue
  | packRecord (args : List Expression)
  | ramIntrinsic (op : Option FunctorOp) (args : List Expression)

/-- RAM conditions. -/
inductive Condition where
  | emptinessCheck (rel : RelName)
  | existenceCheck (rel : RelName) (vals : List Expression)
  | negation (c : Condition)
  | constraint (op : RamBinOp) (lhs rhs : Expression)
  | conjunction (lhs rhs : Condition)
  | alwaysTrue

/-- RAM operations. -/
inductive Operation where
  | project (rel : RelName) (values : List Expression)
  | filter (cond : Condition) (inner : Operation)
  | scan (rel : RelName) (level : Nat) (inner : Operation) (profileText : String)
  | breakOp (cond : Condition) (inner : Operation)
  | unpackRecord (inner : Operation) (level : Nat) (src : Expression) (arity : Nat)
  | aggregate (inner : Operation) (fn : AggTy) (rel : RelName) (target : Expression)
      (cond : Condition) (level : Nat)
  | nestedIntrinsic (fn : NestedOp) (args : List Expression) (inner : Operation)
      (level : Nat)

/-- RAM statements produced by the translation unit. -/
inductive Statement where
  | query (op : Operation)
  | sequence (stmts : List Statement)
  | logRelationTimer (s : Statement) (msg : String) (rel : RelName)
  | debugInfo (s : Statement) (msg : String)

/-! ## Value index -/

/-- Coordinate of a tuple column (`ast2ram::Location`): nesting level and
column. -/
structure Location where
  identifier : Nat
  element : Nat
deriving DecidableEq, Repr

/-- Modelled from the spec: the `ValueIndex` (its source,
`ast2ram/utility/ValueIndex`, is not under src/).  Per spec §3 it records
every variable occurrence (`var_refs`, an ordered set per name whose first
element is the earliest recorded reference, §4.2), record definition points
and generator locations, and answers `is_generator`.  Records and
generators are keyed by node identity (`id` fields), modelling the C++
pointer-keyed maps.  Name iteration follows recording order. -/
structure ValueIndex where
  varRefs : List (String × List Location) := []
  recordDefs : List (Nat × Location) := []
  generatorLocs : List (Nat × Location) := []

/-- Record one variable occurrence; set semantics per name, keeping the
recording order. -/
def ValueIndex.addVarReference (vi : ValueIndex) (v : String) (loc : Location) :
    ValueIndex :=
  let rec go : List (String × List Location) → List (String × List Location)
    | [] => [(v, [loc])]
    | (n, refs) :: rest =>
        if n = v then
          (n, if refs.contains loc then refs else refs ++ [loc]) :: rest
        else (n, refs) :: go rest
  { vi with varRefs := go vi.varRefs }

/-- References recorded for one variable name (empty when unseen). -/
def ValueIndex.refsOf (vi : ValueIndex) (v : String) : List Location :=
  match vi.varRefs.lookup v with
  | some refs => refs
  | none => []

/-- Record the definition point of a record-init node. -/
def ValueIndex.setRecordDefinition (vi : ValueIndex) (rid : Nat) (loc : Location) :
    ValueIndex :=
  { vi with recordDefs := vi.recordDefs ++ [(rid, loc)] }

/-- Definition point of a record-init node; the source asserts presence. -/
def ValueIndex.getDefinitionPoint (vi : ValueIndex) (rid : Nat) : Location :=
  match vi.recordDefs.lookup rid with
  | some loc => loc
  | none => { identifier := 0, element := 0 }

/-- Record the materialisation coordinate of a generator node. -/
def ValueIndex.setGeneratorLoc (vi : ValueIndex) (gid : Nat) (loc : Location) :
    ValueIndex :=
  { vi with generatorLocs := vi.generatorLocs ++ [(gid, loc)] }

/-- Materialisation coordinate of a generator node; the source asserts
presence. -/
def ValueIndex.getGeneratorLoc (vi : ValueIndex) (gid : Nat) : Location :=
  match vi.generatorLocs.lookup gid with
  | some loc => loc
  | none => { identifier := 0, element := 0 }

/-- Whether a nesting level is a generator level (the source calls
`isGenerator(reference.identifier)`, passing only the level). -/
def ValueIndex.isGenerator (vi : ValueIndex) (level : Nat) : Bool :=
  vi.generatorLocs.any (fun p => p.2.identifier = level)

end Souffle

namespace Souffle

/-! ## Translator context and per-call state -/

/-- Host-translator services consumed by the translation unit (spec §6):
the auxiliary-arity query for an atom, the profiling flag, symbol-table
interning (append-only, observationally a fixed map here), and the host's
stringification of AST nodes (used only inside log/debug strings). -/
structure TranslatorContext where
  getEvaluationArity : Atom → Nat
  profile : Bool := false
  symLookup : String → Int := fun _ => 0
  atomText : Atom → String := fun _ => ""
  clauseText : Clause → String := fun _ => ""

/-- Entries of the `operators` list: atoms and record constructors.  Other
node kinds would be the fatal "Unsupported AST node" case of
`addVariableIntroductions`, which this sum type rules out statically. -/
inductive OperatorEntry where
  | atomEntry (a : Atom)
  | recordEntry (id : Nat) (args : List Argument)

/-- Per-call state of `ClauseTranslator`.  The `Nat` paired with each
operator / generator entry is ghost data recording the level returned by
`addOperatorLevel` / `addGeneratorLevel` at registration time (the C++
lists store only the node; emission below walks list positions and a
descending counter exactly as the source does, never this ghost field). -/
structure TState where
  deltaAtom : Option Atom := none
  prevs : List Atom := []
  atomOrder : List Atom := []
  valueIndex : ValueIndex := {}
  operators : List (OperatorEntry × Nat) := []
  generators : List (Argument × Nat) := []

/-- Recursive mode holds exactly when a delta atom is set. -/
def TState.isRecursive (st : TState) : Bool := st.deltaAtom.isSome

/-! ## Constant coding (§4.3) -/

/-- Flat-domain representation of a constant
(`ClauseTranslator::getConstantRamRepresentation`): strings intern through
the symbol table, nil is zero, and numeric constants parse per final type —
the parse result is the value carried by the node in this embedding. -/
def getConstantRamRepresentation (symLookup : String → Int) : Argument → Int
  | .stringConstant s => symLookup s
  | .nilConstant => 0
  | .numericConstant v _ => v
  | _ => 0

/-- Typed constant expression (`ClauseTranslator::translateConstant`).
A numeric constant without a final type is the source's fatal
"unaccounted-for constant"; the embedding totalises that branch with a
signed constant. -/
def translateConstant (symLookup : String → Int) (c : Argument) : Expression :=
  let raw := getConstantRamRepresentation symLookup c
  match c with
  | .numericConstant _ ft =>
      match ft with
      | some .int => .signedConstant raw
      | some .uint => .unsignedConstant raw
      | some .float => .floatConstant raw
      | none => .signedConstant raw
  | _ => .signedConstant raw

/-- Tuple-element read at a recorded coordinate (`makeRamTupleElement`). -/
def makeRamTupleElement (loc : Location) : Expression :=
  .tupleElement loc.identifier loc.element

/-! ## Value translator (§4.2)

Modelled from the spec: the `ValueTranslator` source (`ast2ram/ValueTranslator`)
is not under src/.  Spec §4.2: a variable reads the tuple element at its
first recorded reference; an unnamed variable is the undefined placeholder;
constants go through §4.3; a record-init in value position packs its
translated children; a non-multi-result intrinsic functor becomes a RAM
intrinsic over its translated arguments; aggregators and multi-result
functors used as rvalues read the tuple element at their generator
location. -/

mutual
/-- Modelled from the spec: translation of one AST argument to a RAM
expression (`ValueTranslator::translate`). -/
def translateValue (ctx : TranslatorContext) (vi : ValueIndex) :
    Argument → Expression
  | .var v =>
      match vi.refsOf v with
      | loc :: _ => makeRamTupleElement loc
      | [] => .undefValue
  | .unnamed => .undefValue
  | .numericConstant v ft => translateConstant ctx.symLookup (.numericConstant v ft)
  | .stringConstant s => translateConstant ctx.symLookup (.stringConstant s)
  | .nilConstant => translateConstant ctx.symLookup .nilConstant
  | .recordInit _ args => .packRecord (translateValueList ctx vi args)
  | .intrinsicFunctor fid fop multi args =>
      if multi then makeRamTupleElement (vi.getGeneratorLoc fid)
      else .ramIntrinsic fop (translateValueList ctx vi args)
  | .aggregator aid _ _ _ => makeRamTupleElement (vi.getGeneratorLoc aid)

/-- Modelled from the spec: elementwise value translation. -/
def translateValueList (ctx : TranslatorContext) (vi : ValueIndex) :
    List Argument → List Expression
  | [] => []
  | a :: rest => translateValue ctx vi a :: translateValueList ctx vi rest
end

/-- RAM operator for an AST binary-constraint base operator; polymorphic
refinement of the comparison operators is external to the translation
unit. -/
def toRamBinOp : AstBinOp → RamBinOp
  | .eq => .EQ
  | .lt => .LT
  | .other => .OTHER

/-! ## Constraint translator (§4.2)

Modelled from the spec: the `ConstraintTranslator` source
(`ast2ram/ConstraintTranslator`) is not under src/.  Spec §4.2: binary
constraints become RAM constraints over translated arguments; positive
atoms yield no condition (they become scans); a negated atom of zero user
arity becomes an emptiness check on its source relation; a negated atom of
nonzero user arity becomes a negated existence check with the translated
arguments padded by undefined placeholders in the auxiliary columns. -/
def translateConstraintLit (ctx : TranslatorContext) (vi : ValueIndex) :
    Literal → Option Condition
  | .atom _ => none
  | .binaryConstraint op l r =>
      some (.constraint (toRamBinOp op) (translateValue ctx vi l)
        (translateValue ctx vi r))
  | .negation a =>
      let auxiliaryArity := ctx.getEvaluationArity a
      let arity := a.arity - auxiliaryArity
      let name := getConcreteRelationName a.qname
      if arity = 0 then some (.emptinessCheck name)
      else
        some (.negation (.existenceCheck name
          ((a.args.take arity).map (translateValue ctx vi)
            ++ List.replicate auxiliaryArity .undefValue)))

end Souffle

namespace Souffle

/-! ## Depth-first node collection

The source registers generators and aggregator value introductions through
`visitDepthFirst` over the whole clause.  The collectors below enumerate
the matching nodes in depth-first pre-order (node before children, head
before body), mirroring the visitor. -/

mutual
/-- Aggregator nodes inside one argument, depth-first pre-order. -/
def aggsInArg : Argument → List Argument
  | .recordInit _ args => aggsInArgs args
  | .intrinsicFunctor _ _ _ args => aggsInArgs args
  | .aggregator i ty t body =>
      .aggregator i ty t body ::
        ((match t with
          | some a => aggsInArg a
          | none => []) ++ aggsInLits body)
  | _ => []

/-- Aggregator nodes inside an argument list. -/
def aggsInArgs : List Argument → List Argument
  | [] => []
  | a :: rest => aggsInArg a ++ aggsInArgs rest

/-- Aggregator nodes inside one literal. -/
def aggsInLit : Literal → List Argument
  | .atom (.mk _ _ args) => aggsInArgs args
  | .negation (.mk _ _ args) => aggsInArgs args
  | .binaryConstraint _ l r => aggsInArg l ++ aggsInArg r

/-- Aggregator nodes inside a literal list. -/
def aggsInLits : List Literal → List Argument
  | [] => []
  | l :: rest => aggsInLit l ++ aggsInLits rest
end

/-- Aggregator nodes of a clause in visit order. -/
def aggsInClause (c : Clause) : List Argument :=
  aggsInArgs c.head.args ++ aggsInLits c.body

mutual
/-- Multi-result intrinsic functor nodes inside one argument, depth-first
pre-order. -/
def multiFunctorsInArg : Argument → List Argument
  | .recordInit _ args => multiFunctorsInArgs args
  | .intrinsicFunctor i fop multi args =>
      (if multi then [.intrinsicFunctor i fop multi args] else [])
        ++ multiFunctorsInArgs args
  | .aggregator _ _ t body =>
      (match t with
       | some a => multiFunctorsInArg a
       | none => []) ++ multiFunctorsInLits body
  | _ => []

/-- Multi-result functor nodes inside an argument list. -/
def multiFunctorsInArgs : List Argument → List Argument
  | [] => []
  | a :: rest => multiFunctorsInArg a ++ multiFunctorsInArgs rest

/-- Multi-result functor nodes inside one literal. -/
def multiFunctorsInLit : Literal → List Argument
  | .atom (.mk _ _ args) => multiFunctorsInArgs args
  | .negation (.mk _ _ args) => multiFunctorsInArgs args
  | .binaryConstraint _ l r => multiFunctorsInArg l ++ multiFunctorsInArg r

/-- Multi-result functor nodes inside a literal list. -/
def multiFunctorsInLits : List Literal → List Argument
  | [] => []
  | l :: rest => multiFunctorsInLit l ++ multiFunctorsInLits rest
end

/-- Multi-result functor nodes of a clause in visit order. -/
def multiFunctorsInClause (c : Clause) : List Argument :=
  multiFunctorsInArgs c.head.args ++ multiFunctorsInLits c.body

mutual
/-- Binary constraints inside one argument (aggregator bodies can contain
them), depth-first pre-order. -/
def bcsInArg : Argument → List (AstBinOp × Argument × Argument)
  | .recordInit _ args => bcsInArgs args
  | .intrinsicFunctor _ _ _ args => bcsInArgs args
  | .aggregator _ _ t body =>
      (match t with
       | some a => bcsInArg a
       | none => []) ++ bcsInLits body
  | _ => []

/-- Binary constraints inside an argument list. -/
def bcsInArgs : List Argument → List (AstBinOp × Argument × Argument)
  | [] => []
  | a :: rest => bcsInArg a ++ bcsInArgs rest

/-- Binary constraints inside one literal. -/
def bcsInLit : Literal → List (AstBinOp × Argument × Argument)
  | .atom (.mk _ _ args) => bcsInArgs args
  | .negation (.mk _ _ args) => bcsInArgs args
  | .binaryConstraint op l r => (op, l, r) :: (bcsInArg l ++ bcsInArg r)

/-- Binary constraints inside a literal list. -/
def bcsInLits : List Literal → List (AstBinOp × Argument × Argument)
  | [] => []
  | l :: rest => bcsInLit l ++ bcsInLits rest
end

/-- Binary constraints of a clause in visit order. -/
def bcsInClause (c : Clause) : List (AstBinOp × Argument × Argument) :=
  bcsInArgs c.head.args ++ bcsInLits c.body

/-- Whether an AST binary-constraint operator is equality
(`isEqConstraint`). -/
def isEqConstraint (op : AstBinOp) : Bool := op = .eq

/-- Node identity of a generator argument (aggregator or intrinsic
functor), modelling its C++ address as map key. -/
def argId : Argument → Nat
  | .recordInit i _ => i
  | .intrinsicFunctor i _ _ _ => i
  | .aggregator i _ _ _ => i
  | _ => 0

/-! ## Clause indexer (§4.1) -/

/-- Register a scan-introducing node: returns `operators.len +
generators.len` computed before the push
(`ClauseTranslator::addOperatorLevel`). -/
def addOperatorLevel (st : TState) (node : OperatorEntry) : Nat × TState :=
  let nodeLevel := st.operators.length + st.generators.length
  (nodeLevel, { st with operators := st.operators ++ [(node, nodeLevel)] })

/-- Register a generator node: returns `operators.len + generators.len`
computed before the push (`ClauseTranslator::addGeneratorLevel`). -/
def addGeneratorLevel (st : TState) (arg : Argument) : Nat × TState :=
  let generatorLevel := st.operators.length + st.generators.length
  (generatorLevel, { st with generators := st.generators ++ [(arg, generatorLevel)] })

mutual
/-- Index one argument of a node at coordinate `(nodeLevel, i)`
(the body of the loop in `ClauseTranslator::indexNodeArguments`): record a
variable reference; for a nested record, record its definition point and
descend under a fresh operator level. -/
def indexOneArg (st : TState) (nodeLevel i : Nat) : Argument → TState
  | .var v =>
      { st with valueIndex :=
          st.valueIndex.addVarReference v { identifier := nodeLevel, element := i } }
  | .recordInit rid rargs =>
      let st1 := { st with valueIndex :=
          st.valueIndex.setRecordDefinition rid { identifier := nodeLevel, element := i } }
      let p := addOperatorLevel st1 (.recordEntry rid rargs)
      indexArgList p.2 p.1 0 rargs
  | _ => st

/-- Index the arguments of a node starting at column `i`
(`ClauseTranslator::indexNodeArguments`). -/
def indexArgList (st : TState) (nodeLevel i : Nat) : List Argument → TState
  | [] => st
  | arg :: rest => indexArgList (indexOneArg st nodeLevel i arg) nodeLevel (i + 1) rest
end

/-- Index the arguments of a node (`ClauseTranslator::indexNodeArguments`). -/
def indexNodeArguments (st : TState) (nodeLevel : Nat) (nodeArgs : List Argument) :
    TState :=
  indexArgList st nodeLevel 0 nodeArgs

/-- Index the body atoms in source order
(`ClauseTranslator::indexAtoms`). -/
def indexAtoms (st : TState) (clause : Clause) : TState :=
  (getAtoms clause).foldl
    (fun st atom =>
      let p := addOperatorLevel st (.atomEntry atom)
      indexNodeArguments p.2 p.1 atom.args)
    st

/-- Register a generator and record its materialisation coordinate
(`ClauseTranslator::indexGenerator`). -/
def indexGenerator (st : TState) (arg : Argument) : TState :=
  let p := addGeneratorLevel st arg
  { p.2 with valueIndex :=
      p.2.valueIndex.setGeneratorLoc (argId arg) { identifier := p.1, element := 0 } }

/-- Record variable references of the arguments of an aggregator's body
atom at the aggregator's reserved level (the loop in
`ClauseTranslator::indexAggregatorBody`; only direct variables, no
descent). -/
def addAggAtomVarRefs (vi : ValueIndex) (level : Nat) (args : List Argument) :
    ValueIndex :=
  (args.enum).foldl
    (fun vi p =>
      match p.2 with
      | .var v => vi.addVarReference v { identifier := level, element := p.1 }
      | _ => vi)
    vi

/-- First positive atom of a literal list (the aggregator body's single
atom; the source asserts there is exactly one). -/
def firstAtomOfLits (lits : List Literal) : Option Atom :=
  (lits.filterMap (fun l =>
    match l with
    | .atom a => some a
    | _ => none)).head?

/-- Index the variables of an aggregator's single body atom at the
aggregator's reserved level (`ClauseTranslator::indexAggregatorBody`). -/
def indexAggregatorBody (st : TState) : Argument → TState
  | .aggregator aid _ _ body =>
      let aggLoc := st.valueIndex.getGeneratorLoc aid
      match firstAtomOfLits body with
      | some aggAtom =>
          { st with valueIndex :=
              addAggAtomVarRefs st.valueIndex aggLoc.identifier aggAtom.args }
      | none => st
  | _ => st

/-- Index all aggregators (`ClauseTranslator::indexAggregators`): register
each as a generator, index aggregator bodies, then add value introductions
for `V = aggregator` equality constraints. -/
def indexAggregators (st : TState) (clause : Clause) : TState :=
  let aggs := aggsInClause clause
  let st1 := aggs.foldl indexGenerator st
  let st2 := aggs.foldl indexAggregatorBody st1
  (bcsInClause clause).foldl
    (fun st bc =>
      if isEqConstraint bc.1 then
        match bc.2.1, bc.2.2 with
        | .var v, .aggregator aid _ _ _ =>
            { st with valueIndex :=
                st.valueIndex.addVarReference v (st.valueIndex.getGeneratorLoc aid) }
        | _, _ => st
      else st)
    st2

/-- Index all multi-result intrinsic functors
(`ClauseTranslator::indexMultiResultFunctors`): register each as a
generator, then add value introductions for `V = functor` equality
constraints on multi-result functors. -/
def indexMultiResultFunctors (st : TState) (clause : Clause) : TState :=
  let st1 := (multiFunctorsInClause clause).foldl indexGenerator st
  (bcsInClause clause).foldl
    (fun st bc =>
      if isEqConstraint bc.1 then
        match bc.2.1, bc.2.2 with
        | .var v, .intrinsicFunctor fid _ multi _ =>
            if multi then
              let loc := st.valueIndex.getGeneratorLoc fid
              { st with valueIndex := st.valueIndex.addVarReference v loc }
            else st
        | _, _ => st
      else st)
    st1

/-- Index a clause (`ClauseTranslator::indexClause`): atoms, then
aggregators, then multi-result functors. -/
def indexClause (st : TState) (clause : Clause) : TState :=
  indexMultiResultFunctors (indexAggregators (indexAtoms st clause) clause) clause

end Souffle

namespace Souffle

/-! ## Operation builder (§4.4) -/

/-- Relation name for an atom under the mode/role naming policy
(`ClauseTranslator::getClauseAtomName`).  The pointer comparisons of the
source (`clause.getHead() == atom`, `deltaAtom == atom`) are modelled by
node-identity comparison. -/
def getClauseAtomName (st : TState) (clause : Clause) (atom : Atom) : RelName :=
  if !st.isRecursive then getConcreteRelationName atom.qname
  else if clause.head.id = atom.id then getNewRelationName atom.qname
  else if (match st.deltaAtom with
           | some d => d.id == atom.id
           | none => false) then getDeltaRelationName atom.qname
  else getConcreteRelationName atom.qname

/-- Wrap an operation in one equality filter
(`ClauseTranslator::addEqualityCheck`). -/
def addEqualityCheck (op : Operation) (lhs rhs : Expression) (isFloat : Bool) :
    Operation :=
  let eqOp : RamBinOp := if isFloat then .FEQ else .EQ
  .filter (.constraint eqOp lhs rhs) op

/-- Emit constant-matching equality filters for the constant columns of a
node (`ClauseTranslator::addConstantConstraints`).  Numeric constants use
float equality exactly when their final type is Float; every other constant
uses integer equality. -/
def addConstantConstraints (symLookup : String → Int) (curLevel : Nat)
    (arguments : List Argument) (op : Operation) : Operation :=
  (arguments.enum).foldl
    (fun op p =>
      match p.2 with
      | .numericConstant v ft =>
          let isFloat := (match ft with
            | some t => t = NumType.float
            | none => false)
          addEqualityCheck op (.tupleElement curLevel p.1)
            (translateConstant symLookup (.numericConstant v ft)) isFloat
      | .stringConstant s =>
          addEqualityCheck op (.tupleElement curLevel p.1)
            (translateConstant symLookup (.stringConstant s)) false
      | .nilConstant =>
          addEqualityCheck op (.tupleElement curLevel p.1)
            (translateConstant symLookup .nilConstant) false
      | _ => op)
    op

/-- Innermost projection (`ClauseTranslator::createProjection`): translate
the head arguments; a nullary head additionally wraps the projection in an
emptiness-check filter on the head relation. -/
def createProjection (st : TState) (ctx : TranslatorContext) (clause : Clause) :
    Operation :=
  let headRelationName := getClauseAtomName st clause clause.head
  let values := clause.head.args.map (translateValue ctx st.valueIndex)
  let project := Operation.project headRelationName values
  if clause.head.arity = 0 then
    .filter (.emptinessCheck headRelationName) project
  else project

/-- Variable-binding equality filters
(`ClauseTranslator::addVariableBindingConstraints`): for each variable,
equate the first recorded occurrence to every other occurrence that does
not sit at a generator level. -/
def addVariableBindingConstraints (vi : ValueIndex) (op : Operation) : Operation :=
  vi.varRefs.foldl
    (fun op entry =>
      match entry.2 with
      | [] => op
      | first :: _ =>
          entry.2.foldl
            (fun op reference =>
              if first ≠ reference ∧ ¬ vi.isGenerator reference.identifier then
                addEqualityCheck op (makeRamTupleElement first)
                  (makeRamTupleElement reference) false
              else op)
            op)
    op

/-- Negate one atom (`ClauseTranslator::addNegate`): a zero user-arity atom
becomes a plain emptiness-check filter; otherwise a negated existence check
over the translated non-auxiliary arguments padded with undefined
placeholders, against the delta or concrete relation. -/
def addNegate (st : TState) (ctx : TranslatorContext) (_clause : Clause)
    (atom : Atom) (op : Operation) (isDelta : Bool) : Operation :=
  let auxiliaryArity := ctx.getEvaluationArity atom
  let arity := atom.arity - auxiliaryArity
  let name := if isDelta then getDeltaRelationName atom.qname
              else getConcreteRelationName atom.qname
  if arity = 0 then
    .filter (.emptinessCheck name) op
  else
    let values := (atom.args.take arity).map (translateValue ctx st.valueIndex)
      ++ List.replicate auxiliaryArity Expression.undefValue
    .filter (.negation (.existenceCheck name values)) op

/-- Body-literal filters (`ClauseTranslator::addBodyLiteralConstraints`):
every literal that translates to a condition becomes a filter; in recursive
mode the head (when of nonzero arity) is additionally negated (concrete
relation) and every `prevs` atom is negated against its delta relation. -/
def addBodyLiteralConstraints (st : TState) (ctx : TranslatorContext)
    (clause : Clause) (op : Operation) : Operation :=
  let op := clause.body.foldl
    (fun op lit =>
      match translateConstraintLit ctx st.valueIndex lit with
      | some condition => .filter condition op
      | none => op)
    op
  if st.isRecursive then
    let op := if clause.head.arity > 0 then addNegate st ctx clause clause.head op false
              else op
    st.prevs.foldl (fun op prev => addNegate st ctx clause prev op true) op
  else op

/-- Entry-point condition (`ClauseTranslator::createCondition`): nullary
heads stop re-computation through an emptiness check. -/
def createCondition (st : TState) (originalClause : Clause) : Option Condition :=
  if originalClause.head.arity = 0 then
    some (.emptinessCheck (getClauseAtomName st originalClause originalClause.head))
  else none

/-- Outermost entry-point filter (`ClauseTranslator::addEntryPoint`). -/
def addEntryPoint (st : TState) (originalClause : Clause) (op : Operation) :
    Operation :=
  match createCondition st originalClause with
  | some cond => .filter cond op
  | none => op

/-- Conjunction builder over optional conditions (`addConjunctiveTerm` from
`ram/utility/Utils`, declared outside this translation unit): an absent
conjunct starts the conjunction. -/
def addConjunctiveTerm : Option Condition → Condition → Option Condition
  | some c, t => some (.conjunction c t)
  | none, t => some t

/-- Whether an expression is the undefined placeholder (`isUndefValue`). -/
def isUndefValue : Expression → Bool
  | .undefValue => true
  | _ => false

/-- Equality conjunct helper of `instantiateAggregator` (`addAggEqCondition`):
equate a tuple column of the aggregator level with a value, unless the
value is undefined. -/
def addAggEqCondition (curLevel : Nat) (aggr : Option Condition)
    (value : Expression) (pos : Nat) : Option Condition :=
  if isUndefValue value then aggr
  else addConjunctiveTerm aggr (.constraint .EQ (.tupleElement curLevel pos) value)

/-- Lower one aggregator into an aggregation layer
(`ClauseTranslator::instantiateAggregator`): conjoin translated body-literal
conditions with per-column equalities of the body atom's arguments (a
variable uses its first reference outside this level/column; other
arguments translate as values), then wrap in a RAM aggregate. -/
def instantiateAggregator (st : TState) (ctx : TranslatorContext) (clause : Clause)
    (aggTy : AggTy) (target : Option Argument) (body : List Literal)
    (op : Operation) (curLevel : Nat) : Operation :=
  let aggCond := body.foldl
    (fun c lit =>
      match translateConstraintLit ctx st.valueIndex lit with
      | some condition => addConjunctiveTerm c condition
      | none => c)
    none
  let aggAtom := (firstAtomOfLits body).getD (.mk "" 0 [])
  let aggCond := (aggAtom.args.enum).foldl
    (fun c p =>
      match p.2 with
      | .var v =>
          match (st.valueIndex.refsOf v).find?
              (fun loc => curLevel ≠ loc.identifier ∨ p.1 ≠ loc.element) with
          | some loc => addAggEqCondition curLevel c (makeRamTupleElement loc) p.1
          | none => c
      | arg => addAggEqCondition curLevel c (translateValue ctx st.valueIndex arg) p.1)
    aggCond
  let expr := match target with
    | some e => some (translateValue ctx st.valueIndex e)
    | none => none
  .aggregate op aggTy (getClauseAtomName st clause aggAtom)
    (expr.getD .undefValue) (aggCond.getD .alwaysTrue) curLevel

/-- Lower one multi-result intrinsic functor into a nested intrinsic layer
(`ClauseTranslator::instantiateMultiResultFunctor`); a final operation
outside the three range variants is the source's fatal default, totalised
here with `range`. -/
def instantiateMultiResultFunctor (st : TState) (ctx : TranslatorContext)
    (fop : Option FunctorOp) (fargs : List Argument) (op : Operation)
    (curLevel : Nat) : Operation :=
  let args := fargs.map (translateValue ctx st.valueIndex)
  let funcOp : NestedOp := match fop with
    | some .range => .range
    | some .urange => .urange
    | some .frange => .frange
    | _ => .range
  .nestedIntrinsic funcOp args op curLevel

/-- Dispatch of the generator-layer loop body (the if-else chain inside
`ClauseTranslator::addGeneratorLevels`); an entry that is neither an
aggregator nor an intrinsic functor is the source's "unhandled generator"
assertion, unreachable because only `indexGenerator` appends entries. -/
def instantiateGenerator (st : TState) (ctx : TranslatorContext) (clause : Clause)
    (gen : Argument) (op : Operation) (curLevel : Nat) : Operation :=
  match gen with
  | .aggregator _ aggTy target body =>
      instantiateAggregator st ctx clause aggTy target body op curLevel
  | .intrinsicFunctor _ fop _ fargs =>
      instantiateMultiResultFunctor st ctx fop fargs op curLevel
  | _ => op

/-- Generator layers (`ClauseTranslator::addGeneratorLevels`): walk the
generators in reverse with a counter descending from
`operators.len + generators.len - 1`. -/
def addGeneratorLevels (st : TState) (ctx : TranslatorContext) (clause : Clause)
    (op : Operation) : Operation :=
  let start := st.operators.length + st.generators.length - 1
  (st.generators.reverse.foldl
    (fun acc gen =>
      (instantiateGenerator st ctx clause gen.1 acc.1 acc.2, acc.2 - 1))
    (op, start)).1

/-- Profile annotation string of a scan (spec §6; the host's `stringify`
escaping lives inside the context's text functions). -/
def frequencyAtomText (ctx : TranslatorContext) (originalClause clause : Clause)
    (atom : Atom) (version : Int) (curLevel : Nat) : String :=
  "@frequency-atom" ++ ";" ++ originalClause.head.qname ++ ";"
    ++ toString version ++ ";" ++ ctx.clauseText clause ++ ";"
    ++ ctx.atomText atom ++ ";" ++ ctx.clauseText originalClause ++ ";"
    ++ toString curLevel ++ ";"

/-- Scan layer for one atom (`ClauseTranslator::addAtomScan`): constant
filters, an emptiness guard, then — for a non-nullary atom that is not all
wildcards — an optional break on a nullary head and the scan itself. -/
def addAtomScan (st : TState) (ctx : TranslatorContext) (op : Operation)
    (atom : Atom) (clause originalClause : Clause) (curLevel : Nat)
    (version : Int) : Operation :=
  let head := clause.head
  let op := addConstantConstraints ctx.symLookup curLevel atom.args op
  let op := Operation.filter
    (.negation (.emptinessCheck (getClauseAtomName st clause atom))) op
  let isAllArgsUnnamed := atom.args.all (fun arg =>
    match arg with
    | .unnamed => true
    | _ => false)
  if atom.arity ≠ 0 ∧ ¬ isAllArgsUnnamed then
    let op := if head.arity = 0 then
        Operation.breakOp
          (.negation (.emptinessCheck (getClauseAtomName st clause head))) op
      else op
    let profileText := if ctx.profile then
        frequencyAtomText ctx originalClause clause atom version curLevel
      else ""
    .scan (getClauseAtomName st clause atom) curLevel op profileText
  else op

/-- Unpack layer for one record (`ClauseTranslator::addRecordUnpack`). -/
def addRecordUnpack (st : TState) (ctx : TranslatorContext) (op : Operation)
    (rid : Nat) (rargs : List Argument) (curLevel : Nat) : Operation :=
  let op := addConstantConstraints ctx.symLookup curLevel rargs op
  let loc := st.valueIndex.getDefinitionPoint rid
  .unpackRecord op curLevel (makeRamTupleElement loc) rargs.length

/-- Operator layers (`ClauseTranslator::addVariableIntroductions`): walk
the operators in reverse, using each node's list position as its level. -/
def addVariableIntroductions (st : TState) (ctx : TranslatorContext)
    (clause originalClause : Clause) (version : Int) (op : Operation) :
    Operation :=
  st.operators.enum.reverse.foldl
    (fun op p =>
      match p.2.1 with
      | .atomEntry atom => addAtomScan st ctx op atom clause originalClause p.1 version
      | .recordEntry rid rargs => addRecordUnpack st ctx op rid rargs p.1)
    op

/-! ## Plan-driven atom ordering (§4.5) and clause-level drivers -/

/-- Modelled from the spec: `reorderAtoms` from `ast/utility/Utils` (not
under src/) permutes the atom vector so that position `i` of the result is
the atom at position `order i` of the input. -/
def reorderAtoms (atoms : List Atom) (newOrder : List Nat) : List Atom :=
  newOrder.filterMap (fun idx => atoms[idx]?)

/-- Plan-imposed atom ordering (`ClauseTranslator::getAtomOrdering`):
empty when the clause has no plan or the plan has no order for this
version; otherwise the plan's 1-based order converted to 0-based and
applied to the body atoms. -/
def getAtomOrdering (clause : Clause) (version : Int) : List Atom :=
  match clause.plan with
  | none => []
  | some plan =>
      match List.lookup version plan with
      | none => []
      | some order =>
          let newOrder := order.map (fun i => i - 1)
          reorderAtoms (getAtoms clause) newOrder

/-- Translation-unit errors: the modelled fatal assertions. -/
inductive TransErr where
  | factInRecursiveMode
  | missingClauseVersions
deriving DecidableEq, Repr

/-- Fact path (`ClauseTranslator::createRamFactQuery`): head arguments
translate with an empty value index into a plain projection query.  The
source's `assert(!isRecursive())` is the modelled fatal error. -/
def createRamFactQuery (st : TState) (ctx : TranslatorContext) (clause : Clause) :
    Except TransErr Statement :=
  if st.isRecursive then .error .factInRecursiveMode
  else
    .ok (.query (.project (getClauseAtomName st clause clause.head)
      (clause.head.args.map (translateValue ctx {}))))

/-- Rule path (`ClauseTranslator::createRamRuleQuery`): store the atom
ordering, index the clause, then build the operation tree bottom-up and
wrap it in a query.  (The stored `atomOrder` is never read again in the
translation unit.) -/
def createRamRuleQuery (st : TState) (ctx : TranslatorContext)
    (clause originalClause : Clause) (version : Int) : Statement :=
  let st := { st with atomOrder := getAtomOrdering clause version }
  let st := indexClause st clause
  let op := createProjection st ctx clause
  let op := addVariableBindingConstraints st.valueIndex op
  let op := addBodyLiteralConstraints st ctx clause op
  let op := addGeneratorLevels st ctx clause op
  let op := addVariableIntroductions st ctx clause originalClause version op
  let op := addEntryPoint st originalClause op
  .query op

/-- Clause dispatch (`ClauseTranslator::translateClause`). -/
def translateClause (st : TState) (ctx : TranslatorContext)
    (clause originalClause : Clause) (version : Int) :
    Except TransErr Statement :=
  if isFact clause then createRamFactQuery st ctx clause
  else .ok (createRamRuleQuery st ctx clause originalClause version)

/-! ## Version driver (§4.6) -/

/-- Modelled from the spec: the recursive-rule log-timer message
(`LogStatement::tRecursiveRule`, outside the translation unit); a
semicolon-joined key on relation name, version, source location and clause
text. -/
def tRecursiveRule (rel : String) (version : Int) (srcLoc clauseText : String) :
    String :=
  "@t-recursive-rule" ++ ";" ++ rel ++ ";" ++ toString version ++ ";"
    ++ srcLoc ++ ";" ++ clauseText ++ ";"

/-- Translator state set up by `ClauseTranslator::generateClauseVersion`
before lowering: the delta atom is the body atom at `deltaAtomIdx`, and
`prevs` collects the later body atoms whose relations lie in the SCC. -/
def versionState (scc : List String) (clause : Clause) (deltaAtomIdx : Nat) :
    TState :=
  let atoms := getAtoms clause
  { deltaAtom := atoms[deltaAtomIdx]?,
    prevs := (atoms.drop (deltaAtomIdx + 1)).filter (fun a => scc.contains a.qname) }

/-- One recursive version (`ClauseTranslator::generateClauseVersion`):
lower the clause with the version's delta/prevs state, wrap in a profile
timer when profiling, debug info, and a singleton sequence. -/
def generateClauseVersion (ctx : TranslatorContext) (scc : List String)
    (clause : Clause) (deltaAtomIdx : Nat) (version : Int) :
    Except TransErr Statement :=
  let st := versionState scc clause deltaAtomIdx
  match translateClause st ctx clause clause version with
  | .error e => .error e
  | .ok rule =>
      let rule := if ctx.profile then
          Statement.logRelationTimer rule
            (tRecursiveRule clause.head.qname version clause.srcLoc
              (ctx.clauseText clause))
            (getNewRelationName clause.head.qname)
        else rule
      let rule := Statement.debugInfo rule
        (ctx.clauseText clause ++ "\nin file " ++ clause.srcLoc)
      .ok (.sequence [rule])

/-- Loop of `ClauseTranslator::generateClauseVersions` over the enumerated
body atoms, threading the version counter past the SCC-local atoms. -/
def generateVersionsLoop (ctx : TranslatorContext) (scc : List String)
    (clause : Clause) : List (Nat × Atom) → Int → Except TransErr (List Statement)
  | [], _ => .ok []
  | (i, atom) :: rest, version =>
      if scc.contains atom.qname then
        match generateClauseVersion ctx scc clause i version with
        | .error e => .error e
        | .ok s =>
            match generateVersionsLoop ctx scc clause rest (version + 1) with
            | .error e => .error e
            | .ok ss => .ok (s :: ss)
      else generateVersionsLoop ctx scc clause rest version

/-- Version driver (`ClauseTranslator::generateClauseVersions`): one
version per SCC-local body atom, then the plan check — a plan index not
strictly below the produced version count is the modelled fatal
`missing clause versions` assertion. -/
def generateClauseVersions (ctx : TranslatorContext) (scc : List String)
    (clause : Clause) : Except TransErr (List Statement) :=
  match generateVersionsLoop ctx scc clause (getAtoms clause).enum 0 with
  | .error e => .error e
  | .ok clauseVersions =>
      let version : Int := clauseVersions.length
      match clause.plan with
      | none => .ok clauseVersions
      | some plan =>
          let maxVersion := plan.foldl (fun m cur => max cur.1 m) (-1)
          if version > maxVersion then .ok clauseVersions
          else .error .missingClauseVersions

end Souffle

namespace Souffle

/-! ## Helper notions used by the verification statements -/

/-- Stack of filters: wrap an operation in filters for the given conditions
in order (the first condition becomes the innermost filter). -/
def filterStack (conds : List Condition) (op : Operation) : Operation :=
  conds.foldl (fun op c => .filter c op) op

/-- Whether a condition mentions a relation name. -/
def condMentionsRel (c : Condition) (r : RelName) : Bool :=
  match c with
  | .emptinessCheck n => n = r
  | .existenceCheck n _ => n = r
  | .negation c => condMentionsRel c r
  | .constraint _ _ _ => false
  | .conjunction a b => condMentionsRel a r || condMentionsRel b r
  | .alwaysTrue => false

/-- Whether an operation (spine and conditions) mentions a relation name. -/
def opMentionsRel (o : Operation) (r : RelName) : Bool :=
  match o with
  | .project n _ => n = r
  | .filter c inner => condMentionsRel c r || opMentionsRel inner r
  | .scan n _ inner _ => n = r || opMentionsRel inner r
  | .breakOp c inner => condMentionsRel c r || opMentionsRel inner r
  | .unpackRecord inner _ _ _ => opMentionsRel inner r
  | .aggregate inner _ n _ c _ =>
      n = r || condMentionsRel c r || opMentionsRel inner r
  | .nestedIntrinsic _ _ inner _ => opMentionsRel inner r

/-- Scans along the operation spine, outermost first, as (relation, level)
pairs. -/
def scanList (o : Operation) : List (RelName × Nat) :=
  match o with
  | .project _ _ => []
  | .filter _ inner => scanList inner
  | .scan n lvl inner _ => (n, lvl) :: scanList inner
  | .breakOp _ inner => scanList inner
  | .unpackRecord inner _ _ _ => scanList inner
  | .aggregate inner _ _ _ _ _ => scanList inner
  | .nestedIntrinsic _ _ inner _ => scanList inner

/-- Whether the root of an operation is a filter whose condition is an
emptiness check on the given relation. -/
def rootEmptinessFilter (name : RelName) (o : Operation) : Bool :=
  match o with
  | .filter (.emptinessCheck n) _ => n = name
  | _ => false

/-- Whether some spine node is a filter with an emptiness check on the
given relation immediately wrapping a projection. -/
def emptinessFilterAtProject (name : RelName) (o : Operation) : Bool :=
  match o with
  | .project _ _ => false
  | .filter c inner =>
      (match c, inner with
       | .emptinessCheck n, .project _ _ => n = name
       | _, _ => false) || emptinessFilterAtProject name inner
  | .scan _ _ inner _ => emptinessFilterAtProject name inner
  | .breakOp _ inner => emptinessFilterAtProject name inner
  | .unpackRecord inner _ _ _ => emptinessFilterAtProject name inner
  | .aggregate inner _ _ _ _ _ => emptinessFilterAtProject name inner
  | .nestedIntrinsic _ _ inner _ => emptinessFilterAtProject name inner

/-! ## C2: mode/role relation-name policy -/

/-- C2: the relation name used for an atom follows the mode/role naming
policy: in non-recursive mode every atom (the head included) resolves to
its concrete name; in recursive mode the head resolves to its new name,
the designated delta atom to its delta name, and every other atom to its
concrete name. -/
theorem getClauseAtomName_mode_role_policy (st : TState) (clause : Clause)
    (atom : Atom) :
    (st.deltaAtom = none →
        getClauseAtomName st clause atom = getConcreteRelationName atom.qname)
    ∧ ∀ d, st.deltaAtom = some d →
        (clause.head.id = atom.id →
          getClauseAtomName st clause atom = getNewRelationName atom.qname)
        ∧ (clause.head.id ≠ atom.id → d.id = atom.id →
          getClauseAtomName st clause atom = getDeltaRelationName atom.qname)
        ∧ (clause.head.id ≠ atom.id → d.id ≠ atom.id →
          getClauseAtomName st clause atom = getConcreteRelationName atom.qname) := by
  constructor
  · intro h
    simp [getClauseAtomName, TState.isRecursive, h]
  · intro d hd
    refine ⟨fun hh => ?_, fun hh hdid => ?_, fun hh hdid => ?_⟩
    · simp [getClauseAtomName, TState.isRecursive, hd, hh]
    · simp [getClauseAtomName, TState.isRecursive, hd, hh, hdid]
    · simp [getClauseAtomName, TState.isRecursive, hd, hh, hdid]

/-- Witness for C2 at concrete inputs: a recursive-mode translator with the
second body atom designated as delta resolves the head to its new name,
the delta atom to its delta name, and the remaining atom to its concrete
name; a non-recursive translator resolves the head to its concrete name. -/
theorem getClauseAtomName_mode_role_policy_witness :
    getClauseAtomName { deltaAtom := some (Atom.mk "t" 2 []) }
        { head := Atom.mk "t" 0 [], body := [] } (Atom.mk "t" 0 [])
      = RelName.new "t"
    ∧ getClauseAtomName { deltaAtom := some (Atom.mk "t" 2 []) }
        { head := Atom.mk "t" 0 [], body := [] } (Atom.mk "t" 2 [])
      = RelName.delta "t"
    ∧ getClauseAtomName { deltaAtom := some (Atom.mk "t" 2 []) }
        { head := Atom.mk "t" 0 [], body := [] } (Atom.mk "t" 1 [])
      = RelName.concrete "t"
    ∧ getClauseAtomName {} { head := Atom.mk "t" 0 [], body := [] }
        (Atom.mk "t" 0 []) = RelName.concrete "t" := by
  refine ⟨?_, ?_, ?_, ?_⟩
  · exact (((getClauseAtomName_mode_role_policy _ _ _).2 _ rfl).1) rfl
  · exact (((getClauseAtomName_mode_role_policy _ _ _).2 _ rfl).2.1)
      (by decide) (by decide)
  · exact (((getClauseAtomName_mode_role_policy _ _ _).2 _ rfl).2.2)
      (by decide) (by decide)
  · exact ((getClauseAtomName_mode_role_policy _ _ _).1) rfl

/-! ## C9: facts cannot be lowered in recursive mode -/

/-- C9: reaching the fact path (empty clause body) while a delta atom is
set — recursive mode — is the modelled fatal assertion of
`createRamFactQuery`: facts can only be lowered non-recursively. -/
theorem translateClause_fact_in_recursive_mode_fatal (st : TState)
    (ctx : TranslatorContext) (clause originalClause : Clause) (version : Int)
    (d : Atom) (hfact : clause.body = []) (hrec : st.deltaAtom = some d) :
    translateClause st ctx clause originalClause version
      = .error .factInRecursiveMode := by
  unfold translateClause createRamFactQuery
  simp [isFact, TState.isRecursive, hfact, hrec]

/-- Witness for C9: lowering the fact `p(1).` with a delta atom set aborts
with the fact-in-recursive-mode error. -/
theorem translateClause_fact_in_recursive_mode_fatal_witness :
    translateClause { deltaAtom := some (Atom.mk "q" 1 []) }
        { getEvaluationArity := fun _ => 0 }
        { head := Atom.mk "p" 0 [Argument.numericConstant 1 (some NumType.int)],
          body := [] }
        { head := Atom.mk "p" 0 [Argument.numericConstant 1 (some NumType.int)],
          body := [] } 0
      = .error .factInRecursiveMode :=
  translateClause_fact_in_recursive_mode_fatal _ _ _ _ _ _ rfl rfl

end Souffle

namespace Souffle

/-! ## Version driver lemmas (shared by the semi-naive and plan-check
claims) -/

/-- A clause with no body literals has no body atoms. -/
theorem getAtoms_of_body_nil (c : Clause) (h : c.body = []) : getAtoms c = [] := by
  simp [getAtoms, h]

/-- A clause with a nonempty body is not a fact. -/
theorem isFact_eq_false_of_body_ne_nil (c : Clause) (h : c.body ≠ []) :
    isFact c = false := by
  simp [isFact, List.isEmpty_iff, h]

/-- Rule dispatch: a non-fact clause lowers through the rule path. -/
theorem translateClause_rule_path (st : TState) (ctx : TranslatorContext)
    (clause originalClause : Clause) (version : Int)
    (h : isFact clause = false) :
    translateClause st ctx clause originalClause version
      = .ok (createRamRuleQuery st ctx clause originalClause version) := by
  unfold translateClause
  simp [h]

/-- A version of a clause with a nonempty body always lowers successfully. -/
theorem generateClauseVersion_ok (ctx : TranslatorContext) (scc : List String)
    (clause : Clause) (i : Nat) (version : Int) (h : clause.body ≠ []) :
    ∃ s, generateClauseVersion ctx scc clause i version = .ok s := by
  have hrw := translateClause_rule_path (versionState scc clause i) ctx clause
    clause version (isFact_eq_false_of_body_ne_nil _ h)
  simp only [generateClauseVersion, hrw]
  exact ⟨_, rfl⟩

/-- Loop invariant of the version driver: on a clause with a nonempty body
the loop never fails, produces one statement per SCC-local pair, and the
v-th statement is the lowering with the v-th SCC-local pair's index as
delta index and the counter advanced by v. -/
theorem generateVersionsLoop_ok (ctx : TranslatorContext) (scc : List String)
    (clause : Clause) (hbody : clause.body ≠ []) (l : List (Nat × Atom)) :
    ∀ version : Int,
      ∃ stmts, generateVersionsLoop ctx scc clause l version = .ok stmts
        ∧ stmts.length = (l.filter (fun p => scc.contains p.2.qname)).length
        ∧ ∀ (v idx : Nat) (a : Atom),
            (l.filter (fun p => scc.contains p.2.qname))[v]? = some (idx, a) →
            ∃ s, stmts[v]? = some s
              ∧ generateClauseVersion ctx scc clause idx (version + (v : Int))
                  = .ok s := by
  induction l with
  | nil =>
      intro version
      refine ⟨[], rfl, rfl, ?_⟩
      intro v idx a h
      simp at h
  | cons p rest ih =>
      intro version
      obtain ⟨i, atom⟩ := p
      by_cases hmem : (scc.contains atom.qname) = true
      · have hfc : ((i, atom) :: rest).filter (fun q => scc.contains q.2.qname)
            = (i, atom) :: rest.filter (fun q => scc.contains q.2.qname) :=
          List.filter_cons_of_pos hmem
        obtain ⟨s, hs⟩ := generateClauseVersion_ok ctx scc clause i version hbody
        obtain ⟨stmts, hloop, hlen, helem⟩ := ih (version + 1)
        refine ⟨s :: stmts, ?_, ?_, ?_⟩
        · simp only [generateVersionsLoop, hmem, if_true, hs, hloop]
        · rw [hfc]
          simp [hlen]
        · intro v idx a h
          rw [hfc] at h
          cases v with
          | zero =>
              simp at h
              obtain ⟨h1, h2⟩ := h
              subst h1
              refine ⟨s, by simp, ?_⟩
              simpa using hs
          | succ w =>
              rw [List.getElem?_cons_succ] at h
              obtain ⟨t, ht, hgen⟩ := helem w idx a h
              refine ⟨t, by simpa using ht, ?_⟩
              have harith : version + 1 + (w : Int) = version + ((w : Nat) + 1 : Nat) := by
                push_cast
                ring
              rw [harith] at hgen
              exact hgen
      · have hmemf : (scc.contains atom.qname) = false := by simpa using hmem
        have hfc : ((i, atom) :: rest).filter (fun q => scc.contains q.2.qname)
            = rest.filter (fun q => scc.contains q.2.qname) :=
          List.filter_cons_of_neg hmem
        obtain ⟨stmts, hloop, hlen, helem⟩ := ih version
        refine ⟨stmts, ?_, ?_, ?_⟩
        · simp only [generateVersionsLoop, hmemf, Bool.false_eq_true, if_false, hloop]
        · rw [hfc, hlen]
        · intro v idx a h
          rw [hfc] at h
          exact helem v idx a h

/-- Filtering the enumeration by a predicate on the element and dropping
indices is filtering the list. -/
theorem enum_filter_map_snd (l : List Atom) (q : Atom → Bool) :
    ((l.enum.filter (fun p => q p.2)).map Prod.snd) = l.filter q := by
  have h1 : (fun p : Nat × Atom => q p.2) = (fun p : Nat × Atom => q (Prod.snd p)) := rfl
  calc (l.enum.filter (fun p => q p.2)).map Prod.snd
      = (l.enum.map Prod.snd).filter q := by
        rw [List.filter_map]
        rfl
    _ = l.filter q := by rw [List.enum_map_snd]

/-- The version driver's loop at top level: always succeeds and produces
one statement per SCC-local body atom. -/
theorem generateVersionsLoop_top (ctx : TranslatorContext) (scc : List String)
    (clause : Clause) :
    ∃ stmts,
      generateVersionsLoop ctx scc clause (getAtoms clause).enum 0 = .ok stmts
      ∧ stmts.length
          = ((getAtoms clause).filter (fun a => scc.contains a.qname)).length
      ∧ ∀ (v idx : Nat) (a : Atom),
          ((getAtoms clause).enum.filter
              (fun p => scc.contains p.2.qname))[v]? = some (idx, a) →
          ∃ s, stmts[v]? = some s
            ∧ generateClauseVersion ctx scc clause idx (v : Int) = .ok s := by
  by_cases hbody : clause.body = []
  · have hatoms : getAtoms clause = [] := getAtoms_of_body_nil clause hbody
    refine ⟨[], ?_, ?_, ?_⟩
    · simp [hatoms, generateVersionsLoop, List.enum]
    · simp [hatoms]
    · intro v idx a h
      simp [hatoms] at h
  · obtain ⟨stmts, hloop, hlen, helem⟩ :=
      generateVersionsLoop_ok ctx scc clause hbody (getAtoms clause).enum 0
    have hlen2 : ((getAtoms clause).enum.filter
        (fun p => scc.contains p.2.qname)).length
        = ((getAtoms clause).filter (fun a => scc.contains a.qname)).length := by
      rw [← enum_filter_map_snd (getAtoms clause) (fun a => scc.contains a.qname)]
      simp
    refine ⟨stmts, hloop, by rw [hlen, hlen2], ?_⟩
    intro v idx a h
    have := helem v idx a h
    simpa using this

end Souffle

namespace Souffle

/-- Folding maximum over plan keys: the result is below a bound exactly
when the start value and every key are. -/
theorem foldlMax_lt_iff (pl : List (Int × List Nat)) (m : Int) :
    ∀ init : Int,
      pl.foldl (fun acc cur => max cur.1 acc) init < m
        ↔ init < m ∧ ∀ entry ∈ pl, entry.1 < m := by
  induction pl with
  | nil => simp
  | cons a l ih =>
      intro init
      simp only [List.foldl_cons]
      rw [ih (max a.1 init)]
      simp only [max_lt_iff, List.mem_cons]
      constructor
      · rintro ⟨⟨h1, h2⟩, h3⟩
        exact ⟨h2, fun e he => he.elim (fun h => h ▸ h1) (h3 e)⟩
      · rintro ⟨h1, h2⟩
        exact ⟨⟨h2 a (Or.inl rfl), h1⟩, fun e he => h2 e (Or.inr he)⟩

/-! ## C8: plan indices must be covered by produced versions -/

/-- C8: if the version driver succeeds on a clause carrying a plan, the
number of produced versions strictly exceeds every version index of the
plan's orders; a plan entry whose index is not strictly below the produced
version count (the number of SCC-local body atoms) makes the driver abort
with the fatal missing-clause-versions error. -/
theorem generateClauseVersions_plan_version_check (ctx : TranslatorContext)
    (scc : List String) (clause : Clause) :
    (∀ stmts pl, generateClauseVersions ctx scc clause = .ok stmts →
        clause.plan = some pl →
        ∀ entry ∈ pl, entry.1 < (stmts.length : Int))
    ∧ (∀ pl, clause.plan = some pl →
        (∃ entry ∈ pl, (((getAtoms clause).filter
            (fun a => scc.contains a.qname)).length : Int) ≤ entry.1) →
        generateClauseVersions ctx scc clause = .error .missingClauseVersions) := by
  obtain ⟨stmts0, hloop, hlen, -⟩ := generateVersionsLoop_top ctx scc clause
  constructor
  · intro stmts pl hok hplan entry hentry
    unfold generateClauseVersions at hok
    rw [hloop, hplan] at hok
    simp only at hok
    by_cases hcond :
        pl.foldl (fun acc cur => max cur.1 acc) (-1) < (stmts0.length : Int)
    · rw [if_pos hcond] at hok
      have hstmts : stmts0 = stmts := by
        injection hok
      subst hstmts
      exact ((foldlMax_lt_iff pl _ (-1)).1 hcond).2 entry hentry
    · rw [if_neg hcond] at hok
      exact absurd hok (by simp)
  · rintro pl hplan ⟨entry, hentry, hge⟩
    unfold generateClauseVersions
    rw [hloop, hplan]
    simp only
    rw [if_neg]
    intro hcond
    have := ((foldlMax_lt_iff pl _ (-1)).1 hcond).2 entry hentry
    rw [hlen] at this
    omega

/-- Witness for C8: the clause `p(x) :- p(x).` (one SCC-local atom, hence
one version) with a plan entry for version 1 aborts with the
missing-clause-versions error. -/
theorem generateClauseVersions_plan_version_check_witness :
    generateClauseVersions { getEvaluationArity := fun _ => 0 } ["p"]
        { head := Atom.mk "p" 0 [Argument.var "x"],
          body := [Literal.atom (Atom.mk "p" 1 [Argument.var "x"])],
          plan := some [((1 : Int), [1])] }
      = .error .missingClauseVersions := by
  refine (generateClauseVersions_plan_version_check _ _ _).2 _ rfl ?_
  refine ⟨((1 : Int), [1]), by simp, ?_⟩
  decide

end Souffle

namespace Souffle

/-- A successful optional index lookup yields a member of the list. -/
theorem mem_of_getElemOpt {α : Type} {l : List α} {i : Nat} {a : α}
    (h : l[i]? = some a) : a ∈ l := by
  induction l generalizing i with
  | nil => simp at h
  | cons x xs ih =>
      cases i with
      | zero =>
          simp at h
          simp [h]
      | succ j =>
          rw [List.getElem?_cons_succ] at h
          exact List.mem_cons_of_mem _ (ih h)

/-- An element of the filtered enumeration of a list is an indexed element
of the list and the correspondingly-numbered element of the filtered
list. -/
theorem enum_filter_elem (l : List Atom) (q : Atom → Bool) (v idx : Nat)
    (a : Atom) (h : (l.enum.filter (fun p => q p.2))[v]? = some (idx, a)) :
    l[idx]? = some a ∧ (l.filter q)[v]? = some a := by
  constructor
  · have hmem : (idx, a) ∈ l.enum.filter (fun p => q p.2) :=
      mem_of_getElemOpt h
    have hmem2 : (idx, a) ∈ l.enum := List.mem_of_mem_filter hmem
    exact (List.mk_mem_enum_iff_getElem?).1 hmem2
  · have hmap := congrArg (fun o => Option.map Prod.snd o) h
    simp only [← List.getElem?_map] at hmap
    rw [enum_filter_map_snd l q] at hmap
    simpa using hmap

/-! ## C3: semi-naive version enumeration -/

/-- C3: a successful run of the version driver yields exactly one statement
per SCC-local body atom; the v-th statement is produced with version
number v from the v-th SCC-local atom (at source position idx), whose
state designates that atom as the delta atom and takes as prevs exactly
the SCC-local atoms following it in source order. -/
theorem generateClauseVersions_semi_naive (ctx : TranslatorContext)
    (scc : List String) (clause : Clause) (stmts : List Statement)
    (h : generateClauseVersions ctx scc clause = .ok stmts) :
    stmts.length
      = ((getAtoms clause).filter (fun a => scc.contains a.qname)).length
    ∧ ∀ (v idx : Nat) (a : Atom),
        ((getAtoms clause).enum.filter
            (fun p => scc.contains p.2.qname))[v]? = some (idx, a) →
        (∃ s, stmts[v]? = some s
            ∧ generateClauseVersion ctx scc clause idx (v : Int) = .ok s)
        ∧ (versionState scc clause idx).deltaAtom
            = ((getAtoms clause).filter (fun a => scc.contains a.qname))[v]?
        ∧ (versionState scc clause idx).prevs
            = ((getAtoms clause).drop (idx + 1)).filter
                (fun a => scc.contains a.qname) := by
  obtain ⟨stmts0, hloop, hlen, helem⟩ := generateVersionsLoop_top ctx scc clause
  have hstmts : stmts0 = stmts := by
    unfold generateClauseVersions at h
    rw [hloop] at h
    simp only at h
    cases hplan : clause.plan with
    | none =>
        simp only [hplan] at h
        injection h
    | some pl =>
        simp only [hplan] at h
        by_cases hcond :
            pl.foldl (fun acc cur => max cur.1 acc) (-1) < (stmts0.length : Int)
        · rw [if_pos hcond] at h
          injection h
        · rw [if_neg hcond] at h
          exact absurd h (by simp)
  subst hstmts
  refine ⟨hlen, ?_⟩
  intro v idx a hva
  obtain ⟨hidx, hfilt⟩ :=
    enum_filter_elem (getAtoms clause) (fun a => scc.contains a.qname) v idx a hva
  refine ⟨helem v idx a hva, ?_, rfl⟩
  rw [hfilt]
  simpa [versionState] using hidx

/-- Witness for C3 on the doubly recursive clause
`t(x,z) :- t(x,y), t(y,z).` with both body atoms in the SCC: two versions
are produced; version 0 designates the first body atom as delta with the
second as its only prev, version 1 designates the second with no prevs. -/
theorem generateClauseVersions_semi_naive_witness :
    ∃ stmts, generateClauseVersions { getEvaluationArity := fun _ => 0 } ["t"]
        { head := Atom.mk "t" 0 [Argument.var "x", Argument.var "z"],
          body := [Literal.atom (Atom.mk "t" 1 [Argument.var "x", Argument.var "y"]),
                   Literal.atom (Atom.mk "t" 2 [Argument.var "y", Argument.var "z"])] }
      = .ok stmts
    ∧ stmts.length = 2
    ∧ (versionState ["t"]
        { head := Atom.mk "t" 0 [Argument.var "x", Argument.var "z"],
          body := [Literal.atom (Atom.mk "t" 1 [Argument.var "x", Argument.var "y"]),
                   Literal.atom (Atom.mk "t" 2 [Argument.var "y", Argument.var "z"])] }
        0).deltaAtom = some (Atom.mk "t" 1 [Argument.var "x", Argument.var "y"])
    ∧ (versionState ["t"]
        { head := Atom.mk "t" 0 [Argument.var "x", Argument.var "z"],
          body := [Literal.atom (Atom.mk "t" 1 [Argument.var "x", Argument.var "y"]),
                   Literal.atom (Atom.mk "t" 2 [Argument.var "y", Argument.var "z"])] }
        0).prevs = [Atom.mk "t" 2 [Argument.var "y", Argument.var "z"]]
    ∧ (versionState ["t"]
        { head := Atom.mk "t" 0 [Argument.var "x", Argument.var "z"],
          body := [Literal.atom (Atom.mk "t" 1 [Argument.var "x", Argument.var "y"]),
                   Literal.atom (Atom.mk "t" 2 [Argument.var "y", Argument.var "z"])] }
        1).prevs = [] := by
  have h := generateClauseVersions_semi_naive { getEvaluationArity := fun _ => 0 }
    ["t"]
    { head := Atom.mk "t" 0 [Argument.var "x", Argument.var "z"],
      body := [Literal.atom (Atom.mk "t" 1 [Argument.var "x", Argument.var "y"]),
               Literal.atom (Atom.mk "t" 2 [Argument.var "y", Argument.var "z"])] }
    _ rfl
  refine ⟨_, rfl, ?_, ?_, ?_, ?_⟩
  · exact h.1
  · exact ((h.2 0 0 (Atom.mk "t" 1 [Argument.var "x", Argument.var "y"]) rfl).2.1).trans rfl
  · exact rfl
  · exact rfl
end Souffle

namespace Souffle

/-! ## Filter-stack normal forms for the equality-filter phases -/

/-- An equality check with the float flag down is a plain integer-equality
filter. -/
theorem addEqualityCheck_eq (op : Operation) (lhs rhs : Expression)
    (isFloat : Bool) :
    addEqualityCheck op lhs rhs isFloat
      = .filter (.constraint (if isFloat then .FEQ else .EQ) lhs rhs) op := rfl

/-- Appending condition lists nests filter stacks. -/
theorem filterStack_append (c1 c2 : List Condition) (op : Operation) :
    filterStack (c1 ++ c2) op = filterStack c2 (filterStack c1 op) := by
  simp [filterStack, List.foldl_append]

/-- A fold that wraps a filter per produced condition is the filter stack
of the conditions the elements produce. -/
theorem foldl_optFilter_eq_filterStack {α : Type} (f : α → Option Condition)
    (l : List α) (op : Operation) :
    l.foldl
      (fun op x =>
        match f x with
        | some c => .filter c op
        | none => op)
      op
    = filterStack (l.filterMap f) op := by
  induction l generalizing op with
  | nil => rfl
  | cons x rest ih =>
      simp only [List.foldl_cons, List.filterMap_cons]
      cases hf : f x with
      | none => rw [ih]
      | some c =>
          rw [ih]
          rfl

/-- Conditions produced by the variable-binding phase, in emission order:
for each recorded variable, one integer equality between the first recorded
occurrence and every other occurrence that is not at a generator level.
(Specification vocabulary for stating the phase's behaviour.) -/
def bindingConds (vi : ValueIndex) : List Condition :=
  vi.varRefs.flatMap (fun entry =>
    match entry.2 with
    | [] => []
    | first :: _ =>
        entry.2.filterMap (fun r =>
          if r ≠ first ∧ ¬ vi.isGenerator r.identifier then
            some (.constraint .EQ (makeRamTupleElement first) (makeRamTupleElement r))
          else none))

/-- The variable-binding phase is the filter stack of its binding
conditions. -/
theorem addVariableBindingConstraints_eq_filterStack (vi : ValueIndex)
    (op : Operation) :
    addVariableBindingConstraints vi op = filterStack (bindingConds vi) op := by
  unfold addVariableBindingConstraints bindingConds
  generalize vi.varRefs = entries
  induction entries generalizing op with
  | nil => rfl
  | cons entry rest ih =>
      simp only [List.foldl_cons, List.flatMap_cons, filterStack_append]
      rw [← ih]
      congr 1
      cases entry with
      | mk name refs =>
          cases refs with
          | nil => rfl
          | cons first rest2 =>
              simp only
              have hfun :
                  (fun (op : Operation) reference =>
                    if first ≠ reference ∧ ¬ vi.isGenerator reference.identifier then
                      addEqualityCheck op (makeRamTupleElement first)
                        (makeRamTupleElement reference) false
                    else op)
                  = (fun (op : Operation) r =>
                      match
                        (if r ≠ first ∧ ¬ vi.isGenerator r.identifier then
                          some (Condition.constraint .EQ (makeRamTupleElement first)
                            (makeRamTupleElement r))
                        else none) with
                      | some c => .filter c op
                      | none => op) := by
                funext op r
                by_cases hc : r ≠ first ∧ ¬ vi.isGenerator r.identifier
                · have hc2 : first ≠ r ∧ ¬ vi.isGenerator r.identifier :=
                    ⟨Ne.symm hc.1, hc.2⟩
                  rw [if_pos hc2, if_pos hc]
                  rfl
                · have hc2 : ¬ (first ≠ r ∧ ¬ vi.isGenerator r.identifier) := by
                    intro hcon
                    exact hc ⟨Ne.symm hcon.1, hcon.2⟩
                  rw [if_neg hc2, if_neg hc]
              rw [hfun]
              exact foldl_optFilter_eq_filterStack
                (fun r =>
                  if r ≠ first ∧ ¬ vi.isGenerator r.identifier then
                    some (.constraint .EQ (makeRamTupleElement first)
                      (makeRamTupleElement r))
                  else none)
                (first :: rest2) op

end Souffle

namespace Souffle

/-- Length of a guarded filterMap: one output per element passing the
guard. -/
theorem length_filterMap_guard {α : Type} (c : α → Prop) [DecidablePred c]
    (g : α → Condition) (l : List α) :
    (l.filterMap (fun x => if c x then some (g x) else none)).length
      = (l.filter (fun x => decide (c x))).length := by
  induction l with
  | nil => rfl
  | cons x rest ih =>
      by_cases hx : c x
      · simp [hx, ih]
      · simp [hx, ih]

/-! ## C4: variable-binding equality filters -/

/-- C4: the variable-binding phase emits exactly the filter stack of the
binding conditions: for each variable, one equality filter linking the
first recorded occurrence to every other occurrence that is not at a
generator level — occurrences at generator levels yield no filter — and
the number of emitted filters is the number of such non-first
non-generator occurrences summed over all variables. -/
theorem addVariableBindingConstraints_links_first_occurrence (vi : ValueIndex)
    (op : Operation) :
    addVariableBindingConstraints vi op = filterStack (bindingConds vi) op
    ∧ (bindingConds vi).length
        = (vi.varRefs.map (fun entry =>
            match entry.2 with
            | [] => 0
            | first :: _ =>
                (entry.2.filter (fun r =>
                  decide (r ≠ first ∧ ¬ vi.isGenerator r.identifier))).length)).sum := by
  refine ⟨addVariableBindingConstraints_eq_filterStack vi op, ?_⟩
  unfold bindingConds
  generalize vi.varRefs = entries
  induction entries with
  | nil => rfl
  | cons entry rest ih =>
      simp only [List.flatMap_cons, List.length_append, List.map_cons,
        List.sum_cons, ih]
      congr 1
      cases entry with
      | mk name refs =>
          cases refs with
          | nil => rfl
          | cons first rest2 =>
              exact length_filterMap_guard
                (fun r => r ≠ first ∧ ¬ vi.isGenerator r.identifier)
                (fun r => .constraint .EQ (makeRamTupleElement first)
                  (makeRamTupleElement r))
                (first :: rest2)

/-- Witness-style corollary for C4 at a concrete index: a variable with
three occurrences, one of which sits at a generator level, receives
exactly one linking equality filter, anchored at the first recorded
occurrence. -/
theorem addVariableBindingConstraints_links_first_occurrence_witness :
    addVariableBindingConstraints
        { varRefs := [("x", [{ identifier := 0, element := 0 },
                             { identifier := 1, element := 2 },
                             { identifier := 2, element := 0 }])],
          generatorLocs := [(7, { identifier := 2, element := 0 })] }
        (.project (.concrete "p") [])
      = .filter (.constraint .EQ (.tupleElement 0 0) (.tupleElement 1 2))
          (.project (.concrete "p") []) := by
  have h := (addVariableBindingConstraints_links_first_occurrence
    { varRefs := [("x", [{ identifier := 0, element := 0 },
                         { identifier := 1, element := 2 },
                         { identifier := 2, element := 0 }])],
      generatorLocs := [(7, { identifier := 2, element := 0 })] }
    (.project (.concrete "p") [])).1
  rw [h]
  rfl

/-! ## C10: float versus integer equality opcodes -/

/-- Whether an argument is a numeric constant with final type Float. -/
def isFloatNumericConstant : Argument → Bool
  | .numericConstant _ (some .float) => true
  | _ => false

/-- Constant-matching condition contributed by one argument column
(the per-element body of `addConstantConstraints`), as an optional
condition.  (Specification vocabulary.) -/
def constantCondAt (symLookup : String → Int) (curLevel : Nat) (i : Nat) :
    Argument → Option Condition
  | .numericConstant v ft =>
      let isFloat : Bool := (match ft with
        | some t => t = NumType.float
        | none => false)
      some (.constraint (if isFloat then .FEQ else .EQ)
        (.tupleElement curLevel i)
        (translateConstant symLookup (.numericConstant v ft)))
  | .stringConstant s =>
      some (.constraint .EQ (.tupleElement curLevel i)
        (translateConstant symLookup (.stringConstant s)))
  | .nilConstant =>
      some (.constraint .EQ (.tupleElement curLevel i)
        (translateConstant symLookup .nilConstant))
  | _ => none

/-- Constant-matching conditions of a node's argument list, in emission
order.  (Specification vocabulary.) -/
def constantConds (symLookup : String → Int) (curLevel : Nat)
    (arguments : List Argument) : List Condition :=
  (arguments.enum).filterMap (fun p => constantCondAt symLookup curLevel p.1 p.2)

/-- The constant-constraint phase is the filter stack of its per-column
conditions. -/
theorem addConstantConstraints_eq_filterStack (symLookup : String → Int)
    (curLevel : Nat) (arguments : List Argument) (op : Operation) :
    addConstantConstraints symLookup curLevel arguments op
      = filterStack (constantConds symLookup curLevel arguments) op := by
  unfold addConstantConstraints constantConds
  rw [← foldl_optFilter_eq_filterStack
    (fun p : Nat × Argument => constantCondAt symLookup curLevel p.1 p.2)
    arguments.enum op]
  apply congrFun
  apply congrFun
  apply congrArg
  funext op p
  cases p with
  | mk i arg =>
      cases arg with
      | numericConstant v ft => rfl
      | stringConstant s => rfl
      | nilConstant => rfl
      | var v => rfl
      | unnamed => rfl
      | recordInit rid rargs => rfl
      | intrinsicFunctor fid fop multi fargs => rfl
      | aggregator aid ty t body => rfl

/-- C10: the float-equality opcode appears exactly on constant-matching
filters whose argument is a numeric constant of final type Float: the
constant phase emits the filter stack of the per-column conditions, every
per-column condition carries FEQ exactly when the column's argument is a
float numeric constant (integer equality otherwise), and every
variable-binding equality filter carries integer equality. -/
theorem equality_opcode_policy (symLookup : String → Int) (curLevel : Nat)
    (arguments : List Argument) (op : Operation) (vi : ValueIndex) :
    addConstantConstraints symLookup curLevel arguments op
      = filterStack (constantConds symLookup curLevel arguments) op
    ∧ (∀ (i : Nat) (arg : Argument) (c : Condition),
        constantCondAt symLookup curLevel i arg = some c →
        ∃ rhs, c = .constraint
          (if isFloatNumericConstant arg then .FEQ else .EQ)
          (.tupleElement curLevel i) rhs)
    ∧ (∀ c ∈ bindingConds vi, ∃ lhs rhs, c = .constraint .EQ lhs rhs) := by
  refine ⟨addConstantConstraints_eq_filterStack symLookup curLevel arguments op,
    ?_, ?_⟩
  · intro i arg c hc
    cases arg with
    | numericConstant v ft =>
        refine ⟨translateConstant symLookup (.numericConstant v ft), ?_⟩
        have hcc : c = Condition.constraint
            (if isFloatNumericConstant (.numericConstant v ft) then .FEQ else .EQ)
            (.tupleElement curLevel i)
            (translateConstant symLookup (.numericConstant v ft)) := by
          rw [← Option.some.inj hc]
          cases ft with
          | none => rfl
          | some t => cases t <;> rfl
        exact hcc
    | stringConstant s =>
        refine ⟨translateConstant symLookup (.stringConstant s), ?_⟩
        rw [← Option.some.inj hc]
        rfl
    | nilConstant =>
        refine ⟨translateConstant symLookup .nilConstant, ?_⟩
        rw [← Option.some.inj hc]
        rfl
    | var v => exact absurd hc (by simp [constantCondAt])
    | unnamed => exact absurd hc (by simp [constantCondAt])
    | recordInit rid rargs => exact absurd hc (by simp [constantCondAt])
    | intrinsicFunctor fid fop multi fargs =>
        exact absurd hc (by simp [constantCondAt])
    | aggregator aid ty t body => exact absurd hc (by simp [constantCondAt])
  · intro c hc
    unfold bindingConds at hc
    rw [List.mem_flatMap] at hc
    obtain ⟨entry, -, hcm⟩ := hc
    cases hrefs : entry.2 with
    | nil =>
        simp only [hrefs] at hcm
        simp at hcm
    | cons first rest =>
        simp only [hrefs] at hcm
        rw [List.mem_filterMap] at hcm
        obtain ⟨r, -, hr⟩ := hcm
        by_cases hcond : r ≠ first ∧ ¬ vi.isGenerator r.identifier
        · rw [if_pos hcond] at hr
          exact ⟨makeRamTupleElement first, makeRamTupleElement r,
            (Option.some.inj hr).symm⟩
        · rw [if_neg hcond] at hr
          exact absurd hr (by simp)

/-- Witness for C10: the per-column condition of a float numeric constant
carries FEQ, that of an int numeric constant carries EQ. -/
theorem equality_opcode_policy_witness :
    (∃ rhs, Condition.constraint RamBinOp.FEQ (.tupleElement 0 0)
        (.floatConstant 1)
      = .constraint
          (if isFloatNumericConstant
              (.numericConstant 1 (some NumType.float)) then .FEQ else .EQ)
          (.tupleElement 0 0) rhs)
    ∧ (∃ rhs, Condition.constraint RamBinOp.EQ (.tupleElement 0 1)
        (.signedConstant 1)
      = .constraint
          (if isFloatNumericConstant
              (.numericConstant 1 (some NumType.int)) then .FEQ else .EQ)
          (.tupleElement 0 1) rhs) := by
  constructor
  · exact (equality_opcode_policy (fun _ => 0) 0 []
      (.project (.concrete "p") []) {}).2.1 0
      (.numericConstant 1 (some NumType.float))
      (.constraint .FEQ (.tupleElement 0 0) (.floatConstant 1)) rfl
  · exact (equality_opcode_policy (fun _ => 0) 0 []
      (.project (.concrete "p") []) {}).2.1 1
      (.numericConstant 1 (some NumType.int))
      (.constraint .EQ (.tupleElement 0 1) (.signedConstant 1)) rfl

end Souffle

namespace Souffle

/-! ## C1: negation filters of the recursive body-literal phase -/

/-- Condition produced by `addNegate` for one atom (specification
vocabulary mirroring the two branches of the source). -/
def negateCond (st : TState) (ctx : TranslatorContext) (atom : Atom)
    (isDelta : Bool) : Condition :=
  let auxiliaryArity := ctx.getEvaluationArity atom
  let arity := atom.arity - auxiliaryArity
  let name := if isDelta then getDeltaRelationName atom.qname
              else getConcreteRelationName atom.qname
  if arity = 0 then .emptinessCheck name
  else
    .negation (.existenceCheck name
      ((atom.args.take arity).map (translateValue ctx st.valueIndex)
        ++ List.replicate auxiliaryArity Expression.undefValue))

/-- `addNegate` wraps exactly one filter with its negation condition. -/
theorem addNegate_eq_filter (st : TState) (ctx : TranslatorContext)
    (cl : Clause) (atom : Atom) (op : Operation) (isDelta : Bool) :
    addNegate st ctx cl atom op isDelta
      = .filter (negateCond st ctx atom isDelta) op := by
  unfold addNegate negateCond
  by_cases h : atom.arity - ctx.getEvaluationArity atom = 0
  · rw [if_pos h, if_pos h]
  · rw [if_neg h, if_neg h]

/-- Shape demanded of a negation condition: a nullary (after removing
auxiliary columns) atom yields a plain emptiness check; otherwise a
negated existence check with exactly total-arity operands whose trailing
auxiliary-arity operands are undefined placeholders.  (Specification
vocabulary.) -/
def negCondSpec (name : RelName) (totalArity auxiliaryArity : Nat)
    (c : Condition) : Prop :=
  if totalArity - auxiliaryArity = 0 then c = .emptinessCheck name
  else ∃ vals, c = .negation (.existenceCheck name vals)
    ∧ vals.length = totalArity
    ∧ vals.drop (totalArity - auxiliaryArity)
        = List.replicate auxiliaryArity Expression.undefValue

/-- The negation condition of an atom satisfies the demanded shape when the
auxiliary arity is within bounds (the source's assert). -/
theorem negateCond_spec (st : TState) (ctx : TranslatorContext) (atom : Atom)
    (isDelta : Bool) (haux : ctx.getEvaluationArity atom ≤ atom.arity) :
    negCondSpec
      (if isDelta then getDeltaRelationName atom.qname
       else getConcreteRelationName atom.qname)
      atom.arity (ctx.getEvaluationArity atom)
      (negateCond st ctx atom isDelta) := by
  unfold negCondSpec negateCond
  by_cases h : atom.arity - ctx.getEvaluationArity atom = 0
  · rw [if_pos h, if_pos h]
  · rw [if_neg h, if_neg h]
    refine ⟨_, rfl, ?_, ?_⟩
    · simp only [List.length_append, List.length_map, List.length_take,
        List.length_replicate, Atom.arity] at haux ⊢
      omega
    · have hlen : ((atom.args.take (atom.arity - ctx.getEvaluationArity atom)).map
          (translateValue ctx st.valueIndex)).length
          = atom.arity - ctx.getEvaluationArity atom := by
        simp only [List.length_map, List.length_take, Atom.arity] at haux ⊢
        omega
      exact List.drop_left' hlen

/-- C1 (amended): in recursive mode, after the per-literal filters the
phase negates the head — when of nonzero arity — against the *concrete*
relation, then negates each `prevs` atom against the delta relation of its
source; each negation satisfies the demanded operand shape (total-arity
operands with trailing auxiliary-arity undefined placeholders, or a plain
emptiness check when the non-auxiliary arity is zero). -/
theorem addBodyLiteralConstraints_recursive_negations (st : TState)
    (ctx : TranslatorContext) (clause : Clause) (op : Operation) (d : Atom)
    (hrec : st.deltaAtom = some d)
    (hhead : clause.head.arity ≠ 0)
    (hauxh : ctx.getEvaluationArity clause.head ≤ clause.head.arity)
    (hauxp : ∀ p ∈ st.prevs, ctx.getEvaluationArity p ≤ p.arity) :
    addBodyLiteralConstraints st ctx clause op
      = filterStack
          (negateCond st ctx clause.head false
            :: st.prevs.map (fun p => negateCond st ctx p true))
          (addBodyLiteralConstraints
            { st with deltaAtom := none, prevs := [] } ctx clause op)
    ∧ negCondSpec (getConcreteRelationName clause.head.qname)
        clause.head.arity (ctx.getEvaluationArity clause.head)
        (negateCond st ctx clause.head false)
    ∧ ∀ p ∈ st.prevs,
        negCondSpec (getDeltaRelationName p.qname) p.arity
          (ctx.getEvaluationArity p) (negateCond st ctx p true) := by
  refine ⟨?_, ?_, ?_⟩
  · have hrecb : st.isRecursive = true := by
      simp [TState.isRecursive, hrec]
    have hpos : clause.head.arity > 0 := Nat.pos_of_ne_zero hhead
    unfold addBodyLiteralConstraints
    simp only [hrecb, if_true, hpos, TState.isRecursive, Option.isSome_none,
      Bool.false_eq_true, if_false]
    rw [addNegate_eq_filter]
    rw [show (fun (op : Operation) prev => addNegate st ctx clause prev op true)
        = fun (op : Operation) prev => .filter (negateCond st ctx prev true) op
      from funext fun acc => funext fun p => addNegate_eq_filter st ctx clause p acc true]
    unfold filterStack
    rw [List.foldl_cons, List.foldl_map]
    simp [hrec]
  · have h := negateCond_spec st ctx clause.head false hauxh
    simpa using h
  · intro p hp
    have h := negateCond_spec st ctx p true (hauxp p hp)
    simpa using h

end Souffle

namespace Souffle

/-- Counterexample to C1 as stated: in recursive mode with a nonzero-arity
head, the head is negated against the *concrete* relation — the emitted
existence check names `concrete p` and the tree never mentions `new p`,
while the claim demands negation against the new relation (the two names
are distinct). -/
theorem addBodyLiteralConstraints_new_relation_counterexample :
    addBodyLiteralConstraints
        { deltaAtom := some (Atom.mk "q" 9 []) }
        { getEvaluationArity := fun _ => 0 }
        { head := Atom.mk "p" 0 [Argument.numericConstant 3 (some NumType.int)],
          body := [] }
        (.project (.concrete "z") [])
      = .filter (.negation (.existenceCheck (RelName.concrete "p")
          [.signedConstant 3]))
          (.project (.concrete "z") [])
    ∧ opMentionsRel
        (addBodyLiteralConstraints
          { deltaAtom := some (Atom.mk "q" 9 []) }
          { getEvaluationArity := fun _ => 0 }
          { head := Atom.mk "p" 0 [Argument.numericConstant 3 (some NumType.int)],
            body := [] }
          (.project (.concrete "z") []))
        (RelName.new "p") = false
    ∧ RelName.concrete "p" ≠ RelName.new "p" := by
  refine ⟨rfl, rfl, by decide⟩

/-- Witness for the amended C1: a prev atom of arity 2 with auxiliary
arity 1 is negated with the demanded shape against its delta relation. -/
theorem addBodyLiteralConstraints_recursive_negations_witness :
    negCondSpec (getDeltaRelationName "r") 2 1
      (negateCond
        { deltaAtom := some (Atom.mk "q" 9 []),
          prevs := [Atom.mk "r" 5 [Argument.var "x", Argument.unnamed]] }
        { getEvaluationArity := fun a => if a.qname = "r" then 1 else 0 }
        (Atom.mk "r" 5 [Argument.var "x", Argument.unnamed]) true) := by
  have h := addBodyLiteralConstraints_recursive_negations
    { deltaAtom := some (Atom.mk "q" 9 []),
      prevs := [Atom.mk "r" 5 [Argument.var "x", Argument.unnamed]] }
    { getEvaluationArity := fun a => if a.qname = "r" then 1 else 0 }
    { head := Atom.mk "p" 0 [Argument.numericConstant 3 (some NumType.int)],
      body := [] }
    (.project (.concrete "z") [])
    (Atom.mk "q" 9 []) rfl (by decide) (by decide) ?_
  · exact h.2.2 (Atom.mk "r" 5 [Argument.var "x", Argument.unnamed]) (by simp)
  · intro p hp
    simp at hp
    subst hp
    decide

end Souffle

namespace Souffle

/-! ## C7: plan-driven atom ordering -/

/-- Scans of a query statement, outermost first. -/
def queryScans : Statement → List (RelName × Nat)
  | .query op => scanList op
  | _ => []

/-- C7 evidence: on the clause `a(x) :- b(x), c(x).` with the execution
plan `version 0 ↦ [2, 1]`, `getAtomOrdering` correctly computes the
plan-applied order (c before b, after the 1-based to 0-based conversion),
but the emitted query scans b at level 0 and c at level 1 — the source
order — and the whole lowering output is identical to that of the same
clause without a plan: the computed ordering is stored in the translator's
`atomOrder` member and never read again. -/
theorem planOrdering_computed_but_unused :
    getAtomOrdering
        { head := Atom.mk "a" 0 [Argument.var "x"],
          body := [Literal.atom (Atom.mk "b" 1 [Argument.var "x"]),
                   Literal.atom (Atom.mk "c" 2 [Argument.var "x"])],
          plan := some [((0 : Int), [2, 1])] } 0
      = [Atom.mk "c" 2 [Argument.var "x"], Atom.mk "b" 1 [Argument.var "x"]]
    ∧ queryScans (createRamRuleQuery {} { getEvaluationArity := fun _ => 0 }
        { head := Atom.mk "a" 0 [Argument.var "x"],
          body := [Literal.atom (Atom.mk "b" 1 [Argument.var "x"]),
                   Literal.atom (Atom.mk "c" 2 [Argument.var "x"])],
          plan := some [((0 : Int), [2, 1])] }
        { head := Atom.mk "a" 0 [Argument.var "x"],
          body := [Literal.atom (Atom.mk "b" 1 [Argument.var "x"]),
                   Literal.atom (Atom.mk "c" 2 [Argument.var "x"])],
          plan := some [((0 : Int), [2, 1])] } 0)
      = [(RelName.concrete "b", 0), (RelName.concrete "c", 1)]
    ∧ createRamRuleQuery {} { getEvaluationArity := fun _ => 0 }
        { head := Atom.mk "a" 0 [Argument.var "x"],
          body := [Literal.atom (Atom.mk "b" 1 [Argument.var "x"]),
                   Literal.atom (Atom.mk "c" 2 [Argument.var "x"])],
          plan := some [((0 : Int), [2, 1])] }
        { head := Atom.mk "a" 0 [Argument.var "x"],
          body := [Literal.atom (Atom.mk "b" 1 [Argument.var "x"]),
                   Literal.atom (Atom.mk "c" 2 [Argument.var "x"])],
          plan := some [((0 : Int), [2, 1])] } 0
      = createRamRuleQuery {} { getEvaluationArity := fun _ => 0 }
        { head := Atom.mk "a" 0 [Argument.var "x"],
          body := [Literal.atom (Atom.mk "b" 1 [Argument.var "x"]),
                   Literal.atom (Atom.mk "c" 2 [Argument.var "x"])] }
        { head := Atom.mk "a" 0 [Argument.var "x"],
          body := [Literal.atom (Atom.mk "b" 1 [Argument.var "x"]),
                   Literal.atom (Atom.mk "c" 2 [Argument.var "x"])] } 0 := by
  refine ⟨rfl, rfl, rfl⟩

end Souffle

namespace Souffle

/-! ## C5: level assignment and emission correspondence -/

/-- Operator-ghost invariant: every operator's recorded level is its list
position.  (Specification vocabulary.) -/
def OpInv (st : TState) : Prop :=
  ∀ (k : Nat) (p : OperatorEntry × Nat), st.operators[k]? = some p → p.2 = k

/-- Generator-ghost invariant: every generator's recorded level is the
operator count plus its list position.  (Specification vocabulary.) -/
def GenInv (st : TState) : Prop :=
  ∀ (j : Nat) (p : Argument × Nat),
    st.generators[j]? = some p → p.2 = st.operators.length + j

/-- Case analysis for an optional index into a one-element extension. -/
theorem getElemOpt_concat {α : Type} (l : List α) (x : α) (k : Nat) (p : α)
    (h : (l ++ [x])[k]? = some p) :
    (l[k]? = some p) ∨ (k = l.length ∧ p = x) := by
  rcases Nat.lt_trichotomy k l.length with hk | hk | hk
  · left
    rwa [List.getElem?_append, if_pos hk] at h
  · right
    subst hk
    rw [List.getElem?_concat_length] at h
    exact ⟨rfl, (Option.some.inj h).symm⟩
  · exfalso
    have hlen : (l ++ [x]).length ≤ k := by
      simp
      omega
    rw [List.getElem?_eq_none hlen] at h
    exact Option.noConfusion h

/-- Registering an operator on an empty generator list preserves the
operator-ghost invariant and adds no generator. -/
theorem addOperatorLevel_preserves (st : TState) (node : OperatorEntry)
    (hgens : st.generators = []) (hinv : OpInv st) :
    (addOperatorLevel st node).2.generators = []
    ∧ OpInv (addOperatorLevel st node).2 := by
  refine ⟨hgens, ?_⟩
  intro k p hk
  simp only [addOperatorLevel, hgens, List.length_nil, Nat.add_zero] at hk
  rcases getElemOpt_concat _ _ _ _ hk with h | ⟨hkl, hpx⟩
  · exact hinv k p h
  · rw [hpx, hkl]

mutual
/-- Indexing one argument preserves the operator-ghost invariant and
touches no generator. -/
theorem indexOneArg_inv (st : TState) (lvl i : Nat) (a : Argument)
    (h : st.generators = [] ∧ OpInv st) :
    (indexOneArg st lvl i a).generators = [] ∧ OpInv (indexOneArg st lvl i a) :=
  match a with
  | .var v => h
  | .unnamed => h
  | .numericConstant _ _ => h
  | .stringConstant _ => h
  | .nilConstant => h
  | .intrinsicFunctor _ _ _ _ => h
  | .aggregator _ _ _ _ => h
  | .recordInit rid rargs => by
      have h2 := addOperatorLevel_preserves
        { st with valueIndex := st.valueIndex.setRecordDefinition rid ⟨lvl, i⟩ }
        (.recordEntry rid rargs) h.1 h.2
      exact indexArgList_inv _ _ 0 rargs h2

/-- Indexing an argument list preserves the operator-ghost invariant and
touches no generator. -/
theorem indexArgList_inv (st : TState) (lvl i : Nat) (args : List Argument)
    (h : st.generators = [] ∧ OpInv st) :
    (indexArgList st lvl i args).generators = []
    ∧ OpInv (indexArgList st lvl i args) :=
  match args with
  | [] => h
  | a :: rest => indexArgList_inv _ lvl (i + 1) rest (indexOneArg_inv st lvl i a h)
end

/-- A fold whose step preserves a state property preserves it. -/
theorem foldl_preserves {α : Type} (f : TState → α → TState) (P : TState → Prop)
    (hf : ∀ st a, P st → P (f st a)) :
    ∀ (l : List α) (st : TState), P st → P (l.foldl f st)
  | [], _, h => h
  | a :: rest, st, h => foldl_preserves f P hf rest (f st a) (hf st a h)

/-- Atom indexing preserves the operator-ghost invariant and touches no
generator. -/
theorem indexAtoms_inv (st : TState) (clause : Clause)
    (h : st.generators = [] ∧ OpInv st) :
    (indexAtoms st clause).generators = [] ∧ OpInv (indexAtoms st clause) := by
  unfold indexAtoms
  refine foldl_preserves _ (fun s => s.generators = [] ∧ OpInv s) ?_ _ _ h
  intro s atom hs
  have h2 := addOperatorLevel_preserves s (.atomEntry atom) hs.1 hs.2
  exact indexArgList_inv _ _ 0 atom.args h2

/-- Registering a generator preserves the operator list, the
operator-ghost invariant and the generator-ghost invariant. -/
theorem indexGenerator_inv (st : TState) (arg : Argument)
    (h : OpInv st ∧ GenInv st) :
    (indexGenerator st arg).operators = st.operators
    ∧ OpInv (indexGenerator st arg) ∧ GenInv (indexGenerator st arg) := by
  refine ⟨rfl, h.1, ?_⟩
  intro j p hj
  simp only [indexGenerator, addGeneratorLevel] at hj
  rcases getElemOpt_concat _ _ _ _ hj with hcase | ⟨hjl, hpx⟩
  · exact h.2 j p hcase
  · rw [hpx, hjl]
    rfl

/-- The aggregator-body pass changes only the value index. -/
theorem indexAggregatorBody_lists (st : TState) (a : Argument) :
    (indexAggregatorBody st a).operators = st.operators
    ∧ (indexAggregatorBody st a).generators = st.generators := by
  unfold indexAggregatorBody
  cases a <;> try exact ⟨rfl, rfl⟩
  case aggregator aid ty t body =>
    cases h : firstAtomOfLits body with
    | none =>
        simp only [h]
        refine ⟨?_, ?_⟩ <;> trivial
    | some x =>
        simp only [h]
        refine ⟨?_, ?_⟩ <;> trivial

/-- The aggregator value-introduction step changes only the value index. -/
theorem aggIntroStep_lists (st : TState) (bc : AstBinOp × Argument × Argument) :
    ((if isEqConstraint bc.1 then
        match bc.2.1, bc.2.2 with
        | .var v, .aggregator aid _ _ _ =>
            { st with valueIndex :=
                st.valueIndex.addVarReference v (st.valueIndex.getGeneratorLoc aid) }
        | _, _ => st
      else st) : TState).operators = st.operators
    ∧ ((if isEqConstraint bc.1 then
        match bc.2.1, bc.2.2 with
        | .var v, .aggregator aid _ _ _ =>
            { st with valueIndex :=
                st.valueIndex.addVarReference v (st.valueIndex.getGeneratorLoc aid) }
        | _, _ => st
      else st) : TState).generators = st.generators := by
  by_cases h : isEqConstraint bc.1 = true
  · simp only [h, if_true]
    rcases bc with ⟨o, l, r⟩
    cases l <;> cases r <;> exact ⟨rfl, rfl⟩
  · simp only [h, Bool.false_eq_true, if_false]
    refine ⟨?_, ?_⟩ <;> trivial

/-- The multi-result value-introduction step changes only the value
index. -/
theorem multiIntroStep_lists (st : TState) (bc : AstBinOp × Argument × Argument) :
    ((if isEqConstraint bc.1 then
        match bc.2.1, bc.2.2 with
        | .var v, .intrinsicFunctor fid _ multi _ =>
            if multi then
              let loc := st.valueIndex.getGeneratorLoc fid
              { st with valueIndex := st.valueIndex.addVarReference v loc }
            else st
        | _, _ => st
      else st) : TState).operators = st.operators
    ∧ ((if isEqConstraint bc.1 then
        match bc.2.1, bc.2.2 with
        | .var v, .intrinsicFunctor fid _ multi _ =>
            if multi then
              let loc := st.valueIndex.getGeneratorLoc fid
              { st with valueIndex := st.valueIndex.addVarReference v loc }
            else st
        | _, _ => st
      else st) : TState).generators = st.generators := by
  by_cases h : isEqConstraint bc.1 = true
  · simp only [h, if_true]
    rcases bc with ⟨o, l, r⟩
    cases l <;> cases r <;> try exact ⟨rfl, rfl⟩
    all_goals
      rename_i fid fop multi fargs
      cases multi <;> exact ⟨rfl, rfl⟩
  · simp only [h, Bool.false_eq_true, if_false]
    refine ⟨?_, ?_⟩ <;> trivial

/-- The aggregator indexing pass preserves the operator list and both
ghost invariants. -/
theorem indexAggregators_inv (st : TState) (clause : Clause)
    (h : OpInv st ∧ GenInv st) :
    (indexAggregators st clause).operators = st.operators
    ∧ OpInv (indexAggregators st clause) ∧ GenInv (indexAggregators st clause) := by
  unfold indexAggregators
  have P1 := foldl_preserves indexGenerator
    (fun s => s.operators = st.operators ∧ OpInv s ∧ GenInv s)
    (fun s a hs => by
      obtain ⟨hop, hinv⟩ := indexGenerator_inv s a hs.2
      exact ⟨hop.trans hs.1, hinv⟩)
    (aggsInClause clause) st ⟨rfl, h⟩
  have P2 := foldl_preserves indexAggregatorBody
    (fun s => s.operators = st.operators ∧ OpInv s ∧ GenInv s)
    (fun s a hs => by
      obtain ⟨hop, hgen⟩ := indexAggregatorBody_lists s a
      refine ⟨hop.trans hs.1, ?_, ?_⟩
      · intro k p hk
        rw [hop] at hk
        exact hs.2.1 k p hk
      · intro j p hj
        rw [hgen] at hj
        rw [hop]
        exact hs.2.2 j p hj)
    (aggsInClause clause) _ P1
  refine foldl_preserves _
    (fun s => s.operators = st.operators ∧ OpInv s ∧ GenInv s) ?_ _ _ P2
  intro s bc hs
  obtain ⟨hop, hgen⟩ := aggIntroStep_lists s bc
  refine ⟨hop.trans hs.1, ?_, ?_⟩
  · intro k p hk
    rw [hop] at hk
    exact hs.2.1 k p hk
  · intro j p hj
    rw [hgen] at hj
    rw [hop]
    exact hs.2.2 j p hj

/-- The multi-result functor indexing pass preserves the operator list and
both ghost invariants. -/
theorem indexMultiResultFunctors_inv (st : TState) (clause : Clause)
    (h : OpInv st ∧ GenInv st) :
    (indexMultiResultFunctors st clause).operators = st.operators
    ∧ OpInv (indexMultiResultFunctors st clause)
    ∧ GenInv (indexMultiResultFunctors st clause) := by
  unfold indexMultiResultFunctors
  have P1 := foldl_preserves indexGenerator
    (fun s => s.operators = st.operators ∧ OpInv s ∧ GenInv s)
    (fun s a hs => by
      obtain ⟨hop, hinv⟩ := indexGenerator_inv s a hs.2
      exact ⟨hop.trans hs.1, hinv⟩)
    (multiFunctorsInClause clause) st ⟨rfl, h⟩
  refine foldl_preserves _
    (fun s => s.operators = st.operators ∧ OpInv s ∧ GenInv s) ?_ _ _ P1
  intro s bc hs
  obtain ⟨hop, hgen⟩ := multiIntroStep_lists s bc
  refine ⟨hop.trans hs.1, ?_, ?_⟩
  · intro k p hk
    rw [hop] at hk
    exact hs.2.1 k p hk
  · intro j p hj
    rw [hgen] at hj
    rw [hop]
    exact hs.2.2 j p hj

/-- Clause indexing from an empty index yields both ghost invariants. -/
theorem indexClause_inv (st0 : TState) (clause : Clause)
    (hops : st0.operators = []) (hgens : st0.generators = []) :
    OpInv (indexClause st0 clause) ∧ GenInv (indexClause st0 clause) := by
  unfold indexClause
  have h0 : OpInv st0 := by
    intro k p hk
    rw [hops] at hk
    simp at hk
  have h1 := indexAtoms_inv st0 clause ⟨hgens, h0⟩
  have hgen1 : GenInv (indexAtoms st0 clause) := by
    intro j p hj
    rw [h1.1] at hj
    simp at hj
  have h2 := indexAggregators_inv (indexAtoms st0 clause) clause ⟨h1.2, hgen1⟩
  have h3 := indexMultiResultFunctors_inv _ clause h2.2
  exact h3.2

end Souffle

namespace Souffle

/-- A list whose ghost levels are base-shifted positions maps to a shifted
range. -/
theorem map_ghost_eq_range {α : Type} (l : List (α × Nat)) (base : Nat)
    (h : ∀ (k : Nat) (p : α × Nat), l[k]? = some p → p.2 = base + k) :
    l.map (fun q => q.2) = (List.range l.length).map (fun x => base + x) := by
  apply List.ext_getElem?
  intro i
  rw [List.getElem?_map, List.getElem?_map]
  by_cases hi : i < l.length
  · obtain ⟨p, hp⟩ : ∃ p, l[i]? = some p := by
      rw [List.getElem?_eq_getElem hi]
      exact ⟨_, rfl⟩
    rw [hp]
    have hrange : (List.range l.length)[i]? = some i := by
      simp [List.getElem?_range, hi]
    rw [hrange]
    simp [h i p hp]
  · rw [List.getElem?_eq_none (by omega : l.length ≤ i),
        List.getElem?_eq_none (by simp; omega : (List.range l.length).length ≤ i)]
    rfl

/-- The reverse walk with a descending counter visits each generator at
exactly its recorded ghost level. -/
theorem counterFold_eq_ghost (f : Argument → Operation → Nat → Operation)
    (gs : List (Argument × Nat)) :
    ∀ (base : Nat),
      (∀ (j : Nat) (p : Argument × Nat), gs[j]? = some p → p.2 = base + j) →
      ∀ op : Operation,
        (gs.reverse.foldl
          (fun acc g => (f g.1 acc.1 acc.2, acc.2 - 1))
          (op, base + gs.length - 1)).1
        = gs.reverse.foldl (fun o g => f g.1 o g.2) op := by
  induction gs using List.reverseRecOn with
  | nil =>
      intro base h op
      rfl
  | append_singleton gs g ih =>
      intro base h op
      have hg : g.2 = base + gs.length :=
        h gs.length g (by rw [List.getElem?_concat_length])
      have hrev : (gs ++ [g]).reverse = g :: gs.reverse := by
        simp
      have hlen : base + (gs ++ [g]).length - 1 = base + gs.length := by
        simp
      rw [hrev, hlen, List.foldl_cons, List.foldl_cons, hg]
      have hsub : ∀ (j : Nat) (p : Argument × Nat),
          gs[j]? = some p → p.2 = base + j := by
        intro j p hp
        have hj : j < gs.length := by
          by_contra hc
          rw [List.getElem?_eq_none (by omega)] at hp
          exact Option.noConfusion hp
        refine h j p ?_
        rw [List.getElem?_append, if_pos hj]
        exact hp
      have := ih base hsub (f g.1 op (base + gs.length))
      calc (gs.reverse.foldl (fun acc g => (f g.1 acc.1 acc.2, acc.2 - 1))
              (f g.1 op (base + gs.length), base + gs.length - 1)).1
          = gs.reverse.foldl (fun o g => f g.1 o g.2)
              (f g.1 op (base + gs.length)) := this
        _ = _ := rfl

/-- C5: each `addOperatorLevel` / `addGeneratorLevel` call returns
`operators.len + generators.len` computed before the push; consequently,
after indexing a clause from an empty index, the recorded operator levels
are exactly the operator list positions, the recorded generator levels are
the operator count plus the generator list positions — so together the
levels form the contiguous range `[0, operators.len + generators.len)` —
and the generator-emission walk with its descending counter instantiates
every generator at exactly its recorded level. -/
theorem level_assignment_contiguous (st : TState) (st0 : TState)
    (node : OperatorEntry) (arg : Argument) (ctx : TranslatorContext)
    (clause : Clause) (op : Operation)
    (hops : st0.operators = []) (hgens : st0.generators = []) :
    (addOperatorLevel st node).1 = st.operators.length + st.generators.length
    ∧ (addGeneratorLevel st arg).1 = st.operators.length + st.generators.length
    ∧ OpInv (indexClause st0 clause)
    ∧ GenInv (indexClause st0 clause)
    ∧ ((indexClause st0 clause).operators.map (fun q => q.2)
        ++ (indexClause st0 clause).generators.map (fun q => q.2)
        = List.range ((indexClause st0 clause).operators.length
            + (indexClause st0 clause).generators.length))
    ∧ addGeneratorLevels (indexClause st0 clause) ctx clause op
        = (indexClause st0 clause).generators.reverse.foldl
            (fun o g =>
              instantiateGenerator (indexClause st0 clause) ctx clause g.1 o g.2)
            op := by
  obtain ⟨hop, hgen⟩ := indexClause_inv st0 clause hops hgens
  refine ⟨rfl, rfl, hop, hgen, ?_, ?_⟩
  · have h1 := map_ghost_eq_range (indexClause st0 clause).operators 0
      (fun k p hk => by simpa using hop k p hk)
    have h2 := map_ghost_eq_range (indexClause st0 clause).generators
      (indexClause st0 clause).operators.length hgen
    rw [h1, h2, List.range_add]
    congr 1
    simp
  · unfold addGeneratorLevels
    exact counterFold_eq_ghost
      (fun g o lvl => instantiateGenerator (indexClause st0 clause) ctx clause g o lvl)
      (indexClause st0 clause).generators
      (indexClause st0 clause).operators.length hgen op

/-- Witness for C5 on the clause `p(c) :- r(y), c = count : q(_).`: one
operator (the atom r) at level 0 and one generator (the count aggregator)
at level 1, together the contiguous range `[0, 2)`. -/
theorem level_assignment_contiguous_witness :
    (let st1 := indexClause ({} : TState)
        { head := Atom.mk "p" 0 [Argument.var "c"],
          body := [Literal.atom (Atom.mk "r" 1 [Argument.var "y"]),
                   Literal.binaryConstraint AstBinOp.eq (Argument.var "c")
                     (Argument.aggregator 3 AggTy.count none
                       [Literal.atom (Atom.mk "q" 2 [Argument.unnamed])])] }
     st1.operators.map (fun q => q.2) ++ st1.generators.map (fun q => q.2))
      = List.range 2 := by
  have h := (level_assignment_contiguous {} {} (.atomEntry (Atom.mk "r" 9 []))
    Argument.unnamed { getEvaluationArity := fun _ => 0 }
    { head := Atom.mk "p" 0 [Argument.var "c"],
      body := [Literal.atom (Atom.mk "r" 1 [Argument.var "y"]),
               Literal.binaryConstraint AstBinOp.eq (Argument.var "c")
                 (Argument.aggregator 3 AggTy.count none
                   [Literal.atom (Atom.mk "q" 2 [Argument.unnamed])])] }
    (.project (.concrete "z") []) rfl rfl).2.2.2.2.1
  exact h

end Souffle

namespace Souffle

/-! ## C6: nullary-head emptiness filters -/

/-- A condition is safe for a name when it is not an emptiness check on
that name.  (Specification vocabulary.) -/
def safeCond (n : RelName) (c : Condition) : Prop :=
  ∀ m, c = .emptinessCheck m → m ≠ n

/-- Filtering with a safe condition neither creates nor destroys an
emptiness filter at the projection. -/
theorem eFAP_filter_safe (n : RelName) (c : Condition) (o : Operation)
    (h : safeCond n c) :
    emptinessFilterAtProject n (.filter c o) = emptinessFilterAtProject n o := by
  cases c with
  | emptinessCheck m =>
      have hm : m ≠ n := h m rfl
      cases o <;> simp [emptinessFilterAtProject, hm]
  | existenceCheck m vals => cases o <;> rfl
  | negation c => cases o <;> rfl
  | constraint bop l r => cases o <;> rfl
  | conjunction a b => cases o <;> rfl
  | alwaysTrue => cases o <;> rfl

/-- Filtering with a safe condition keeps the root clear of a matching
emptiness filter. -/
theorem rootEF_filter_safe (n : RelName) (c : Condition) (o : Operation)
    (h : safeCond n c) :
    rootEmptinessFilter n (.filter c o) = false := by
  cases c with
  | emptinessCheck m =>
      have hm : m ≠ n := h m rfl
      simp [rootEmptinessFilter, hm]
  | existenceCheck m vals => rfl
  | negation c => rfl
  | constraint bop l r => rfl
  | conjunction a b => rfl
  | alwaysTrue => rfl

/-- Any filter preserves a present emptiness filter at the projection. -/
theorem eFAP_filter_mono (n : RelName) (c : Condition) (o : Operation)
    (h : emptinessFilterAtProject n o = true) :
    emptinessFilterAtProject n (.filter c o) = true := by
  cases c <;> cases o <;> simp_all [emptinessFilterAtProject]

/-- Filter stacks of safe conditions preserve the at-projection status. -/
theorem eFAP_filterStack_safe (n : RelName) (conds : List Condition)
    (op : Operation) (h : ∀ c ∈ conds, safeCond n c) :
    emptinessFilterAtProject n (filterStack conds op)
      = emptinessFilterAtProject n op := by
  induction conds generalizing op with
  | nil => rfl
  | cons c rest ih =>
      have hstep := eFAP_filter_safe n c op (h c (by simp))
      calc emptinessFilterAtProject n (filterStack rest (.filter c op))
          = emptinessFilterAtProject n (.filter c op) :=
            ih (.filter c op) (fun d hd => h d (List.mem_cons_of_mem _ hd))
        _ = emptinessFilterAtProject n op := hstep

/-- Filter stacks preserve a present emptiness filter at the projection. -/
theorem eFAP_filterStack_mono (n : RelName) (conds : List Condition)
    (op : Operation) (h : emptinessFilterAtProject n op = true) :
    emptinessFilterAtProject n (filterStack conds op) = true := by
  induction conds generalizing op with
  | nil => exact h
  | cons c rest ih => exact ih _ (eFAP_filter_mono n c op h)

/-- A filter stack of safe conditions leaves the root either unchanged or
clear of a matching emptiness filter. -/
theorem rootEF_filterStack_safe (n : RelName) (conds : List Condition)
    (op : Operation) (h : ∀ c ∈ conds, safeCond n c) :
    rootEmptinessFilter n (filterStack conds op) = false
    ∨ filterStack conds op = op := by
  induction conds generalizing op with
  | nil => exact Or.inr rfl
  | cons c rest ih =>
      rcases ih (Operation.filter c op)
          (fun d hd => h d (List.mem_cons_of_mem _ hd)) with hr | hr
      · exact Or.inl hr
      · left
        rw [show filterStack (c :: rest) op = filterStack rest (.filter c op)
          from rfl, hr]
        exact rootEF_filter_safe n c op (h c (by simp))

end Souffle

namespace Souffle

/-- Binding conditions are equality constraints and hence safe for every
name. -/
theorem bindingConds_safe (n : RelName) (vi : ValueIndex) :
    ∀ c ∈ bindingConds vi, safeCond n c := by
  intro c hc
  unfold bindingConds at hc
  rw [List.mem_flatMap] at hc
  obtain ⟨entry, -, hcm⟩ := hc
  cases hrefs : entry.2 with
  | nil =>
      simp only [hrefs] at hcm
      simp at hcm
  | cons first rest =>
      simp only [hrefs] at hcm
      rw [List.mem_filterMap] at hcm
      obtain ⟨r, -, hr⟩ := hcm
      by_cases hcond : r ≠ first ∧ ¬ vi.isGenerator r.identifier
      · rw [if_pos hcond] at hr
        rw [← Option.some.inj hr]
        intro m hm
        exact absurd hm (by simp)
      · rw [if_neg hcond] at hr
        exact absurd hr (by simp)

/-- Constant-matching conditions are equality constraints and hence safe
for every name. -/
theorem constantConds_safe (n : RelName) (symLookup : String → Int)
    (curLevel : Nat) (arguments : List Argument) :
    ∀ c ∈ constantConds symLookup curLevel arguments, safeCond n c := by
  intro c hc
  unfold constantConds at hc
  rw [List.mem_filterMap] at hc
  obtain ⟨p, -, hp⟩ := hc
  cases harg : p.2 with
  | numericConstant v ft =>
      rw [harg] at hp
      simp only [constantCondAt] at hp
      rw [← Option.some.inj hp]
      intro m hm
      exact absurd hm (by simp)
  | stringConstant s =>
      rw [harg] at hp
      rw [← Option.some.inj hp]
      intro m hm
      exact absurd hm (by simp)
  | nilConstant =>
      rw [harg] at hp
      rw [← Option.some.inj hp]
      intro m hm
      exact absurd hm (by simp)
  | var v => rw [harg] at hp; exact absurd hp (by simp [constantCondAt])
  | unnamed => rw [harg] at hp; exact absurd hp (by simp [constantCondAt])
  | recordInit rid rargs => rw [harg] at hp; exact absurd hp (by simp [constantCondAt])
  | intrinsicFunctor fid fop multi fargs =>
      rw [harg] at hp
      exact absurd hp (by simp [constantCondAt])
  | aggregator aid ty t body =>
      rw [harg] at hp
      exact absurd hp (by simp [constantCondAt])

/-- An atom-scan layer preserves the at-projection status and leaves the
root clear of any bare emptiness filter. -/
theorem addAtomScan_eFAP (n : RelName) (st : TState) (ctx : TranslatorContext)
    (op : Operation) (atom : Atom) (clause originalClause : Clause)
    (curLevel : Nat) (version : Int) :
    emptinessFilterAtProject n
        (addAtomScan st ctx op atom clause originalClause curLevel version)
      = emptinessFilterAtProject n op
    ∧ rootEmptinessFilter n
        (addAtomScan st ctx op atom clause originalClause curLevel version)
      = false := by
  unfold addAtomScan
  have hconst := addConstantConstraints_eq_filterStack ctx.symLookup curLevel
    atom.args op
  have hsafe := constantConds_safe n ctx.symLookup curLevel atom.args
  have hnegSafe : safeCond n
      (.negation (.emptinessCheck (getClauseAtomName st clause atom))) := by
    intro m hm
    exact absurd hm (by simp)
  by_cases hscan : atom.arity ≠ 0 ∧ ¬ atom.args.all (fun arg =>
      match arg with
      | .unnamed => true
      | _ => false) = true
  · rw [if_pos hscan]
    by_cases hhead : clause.head.arity = 0
    · rw [if_pos hhead]
      constructor
      · show emptinessFilterAtProject n
            (.filter (.negation (.emptinessCheck (getClauseAtomName st clause atom)))
              (addConstantConstraints ctx.symLookup curLevel atom.args op)) = _
        rw [eFAP_filter_safe n _ _ hnegSafe, hconst,
          eFAP_filterStack_safe n _ _ hsafe]
      · rfl
    · rw [if_neg hhead]
      constructor
      · show emptinessFilterAtProject n
            (.filter (.negation (.emptinessCheck (getClauseAtomName st clause atom)))
              (addConstantConstraints ctx.symLookup curLevel atom.args op)) = _
        rw [eFAP_filter_safe n _ _ hnegSafe, hconst,
          eFAP_filterStack_safe n _ _ hsafe]
      · rfl
  · rw [if_neg hscan]
    constructor
    · rw [eFAP_filter_safe n _ _ hnegSafe, hconst,
        eFAP_filterStack_safe n _ _ hsafe]
    · exact rootEF_filter_safe n _ _ hnegSafe

/-- A record-unpack layer preserves the at-projection status and leaves
the root clear of any bare emptiness filter. -/
theorem addRecordUnpack_eFAP (n : RelName) (st : TState)
    (ctx : TranslatorContext) (op : Operation) (rid : Nat)
    (rargs : List Argument) (curLevel : Nat) :
    emptinessFilterAtProject n (addRecordUnpack st ctx op rid rargs curLevel)
      = emptinessFilterAtProject n op
    ∧ rootEmptinessFilter n (addRecordUnpack st ctx op rid rargs curLevel)
      = false := by
  unfold addRecordUnpack
  constructor
  · show emptinessFilterAtProject n
        (addConstantConstraints ctx.symLookup curLevel rargs op) = _
    rw [addConstantConstraints_eq_filterStack,
      eFAP_filterStack_safe n _ _ (constantConds_safe n ctx.symLookup curLevel rargs)]
  · rfl

/-- The operator layers preserve the at-projection status and leave the
root clear of any bare emptiness filter (or untouched). -/
theorem addVariableIntroductions_eFAP (n : RelName) (st : TState)
    (ctx : TranslatorContext) (clause originalClause : Clause) (version : Int)
    (op : Operation) :
    emptinessFilterAtProject n
        (addVariableIntroductions st ctx clause originalClause version op)
      = emptinessFilterAtProject n op
    ∧ (rootEmptinessFilter n
        (addVariableIntroductions st ctx clause originalClause version op)
        = false
      ∨ addVariableIntroductions st ctx clause originalClause version op = op) := by
  unfold addVariableIntroductions
  generalize st.operators.enum.reverse = l
  induction l generalizing op with
  | nil => exact ⟨rfl, Or.inr rfl⟩
  | cons p rest ih =>
      rw [List.foldl_cons]
      cases hentry : p.2.1 with
      | atomEntry atom =>
          obtain ⟨h1, h2⟩ :=
            addAtomScan_eFAP n st ctx op atom clause originalClause p.1 version
          obtain ⟨ih1, ih2⟩ :=
            ih (addAtomScan st ctx op atom clause originalClause p.1 version)
          refine ⟨ih1.trans h1, ?_⟩
          rcases ih2 with hr | hr
          · exact Or.inl hr
          · rw [hr]
            exact Or.inl h2
      | recordEntry rid rargs =>
          obtain ⟨h1, h2⟩ := addRecordUnpack_eFAP n st ctx op rid rargs p.1
          obtain ⟨ih1, ih2⟩ := ih (addRecordUnpack st ctx op rid rargs p.1)
          refine ⟨ih1.trans h1, ?_⟩
          rcases ih2 with hr | hr
          · exact Or.inl hr
          · rw [hr]
            exact Or.inl h2

end Souffle

namespace Souffle

/-- Generator layers preserve the at-projection status and leave the root
clear of any bare emptiness filter (or untouched). -/
theorem addGeneratorLevels_eFAP (n : RelName) (st : TState)
    (ctx : TranslatorContext) (clause : Clause) (op : Operation) :
    emptinessFilterAtProject n (addGeneratorLevels st ctx clause op)
      = emptinessFilterAtProject n op
    ∧ (rootEmptinessFilter n (addGeneratorLevels st ctx clause op) = false
      ∨ addGeneratorLevels st ctx clause op = op) := by
  unfold addGeneratorLevels
  generalize st.generators.reverse = l
  generalize st.operators.length + st.generators.length - 1 = start
  suffices h : ∀ (acc : Operation × Nat),
      emptinessFilterAtProject n
          ((l.foldl (fun acc gen =>
            (instantiateGenerator st ctx clause gen.1 acc.1 acc.2, acc.2 - 1))
            acc).1)
        = emptinessFilterAtProject n acc.1
      ∧ (rootEmptinessFilter n
          ((l.foldl (fun acc gen =>
            (instantiateGenerator st ctx clause gen.1 acc.1 acc.2, acc.2 - 1))
            acc).1) = false
        ∨ (l.foldl (fun acc gen =>
            (instantiateGenerator st ctx clause gen.1 acc.1 acc.2, acc.2 - 1))
            acc).1 = acc.1) by
    exact h (op, start)
  induction l with
  | nil => exact fun acc => ⟨rfl, Or.inr rfl⟩
  | cons g rest ih =>
      intro acc
      rw [List.foldl_cons]
      have hstep : emptinessFilterAtProject n
            (instantiateGenerator st ctx clause g.1 acc.1 acc.2)
          = emptinessFilterAtProject n acc.1
        ∧ (rootEmptinessFilter n
            (instantiateGenerator st ctx clause g.1 acc.1 acc.2) = false
          ∨ instantiateGenerator st ctx clause g.1 acc.1 acc.2 = acc.1) := by
        unfold instantiateGenerator
        cases g.1 with
        | aggregator aid ty t body =>
            exact ⟨rfl, Or.inl rfl⟩
        | intrinsicFunctor fid fop multi fargs =>
            exact ⟨rfl, Or.inl rfl⟩
        | var v => exact ⟨rfl, Or.inr rfl⟩
        | unnamed => exact ⟨rfl, Or.inr rfl⟩
        | numericConstant v ft => exact ⟨rfl, Or.inr rfl⟩
        | stringConstant s => exact ⟨rfl, Or.inr rfl⟩
        | nilConstant => exact ⟨rfl, Or.inr rfl⟩
        | recordInit rid rargs => exact ⟨rfl, Or.inr rfl⟩
      obtain ⟨ih1, ih2⟩ :=
        ih (instantiateGenerator st ctx clause g.1 acc.1 acc.2, acc.2 - 1)
      refine ⟨ih1.trans hstep.1, ?_⟩
      rcases ih2 with hr | hr
      · exact Or.inl hr
      · rw [hr]
        rcases hstep.2 with hs | hs
        · exact Or.inl hs
        · rw [hs]
          exact Or.inr rfl

/-- Body-literal filters with name-safe conditions preserve the
at-projection status and leave the root clear of any bare emptiness filter
(or untouched). -/
theorem addBodyLiteralConstraints_eFAP (n : RelName) (st : TState)
    (ctx : TranslatorContext) (clause : Clause) (op : Operation)
    (hlits : ∀ lit ∈ clause.body, ∀ c,
      translateConstraintLit ctx st.valueIndex lit = some c → safeCond n c)
    (hhead : st.isRecursive = true →
      safeCond n (negateCond st ctx clause.head false))
    (hprevs : st.isRecursive = true →
      ∀ p ∈ st.prevs, safeCond n (negateCond st ctx p true)) :
    emptinessFilterAtProject n (addBodyLiteralConstraints st ctx clause op)
      = emptinessFilterAtProject n op
    ∧ (rootEmptinessFilter n (addBodyLiteralConstraints st ctx clause op) = false
      ∨ addBodyLiteralConstraints st ctx clause op = op) := by
  unfold addBodyLiteralConstraints
  rw [foldl_optFilter_eq_filterStack (translateConstraintLit ctx st.valueIndex)
    clause.body op]
  have hsafeLits : ∀ c ∈ clause.body.filterMap
      (translateConstraintLit ctx st.valueIndex), safeCond n c := by
    intro c hc
    rw [List.mem_filterMap] at hc
    obtain ⟨lit, hlit, hsome⟩ := hc
    exact hlits lit hlit c hsome
  have hbase1 := eFAP_filterStack_safe n _ op hsafeLits
  have hbase2 := rootEF_filterStack_safe n _ op hsafeLits
  by_cases hrec : st.isRecursive = true
  · rw [if_pos hrec]
    by_cases hh : clause.head.arity > 0
    · rw [if_pos hh]
      set base := filterStack
        (clause.body.filterMap (translateConstraintLit ctx st.valueIndex)) op
      rw [show st.prevs.foldl
            (fun op prev => addNegate st ctx clause prev op true)
            (addNegate st ctx clause clause.head base false)
          = filterStack (st.prevs.map (fun p => negateCond st ctx p true))
              (.filter (negateCond st ctx clause.head false) base) by
        rw [addNegate_eq_filter]
        unfold filterStack
        rw [List.foldl_map]
        apply congrFun
        apply congrFun
        apply congrArg
        funext o p
        exact addNegate_eq_filter st ctx clause p o true]
      have hsafePrevs : ∀ c ∈ st.prevs.map (fun p => negateCond st ctx p true),
          safeCond n c := by
        intro c hc
        rw [List.mem_map] at hc
        obtain ⟨p, hp, hcp⟩ := hc
        rw [← hcp]
        exact hprevs hrec p hp
      constructor
      · rw [eFAP_filterStack_safe n _ _ hsafePrevs,
          eFAP_filter_safe n _ _ (hhead hrec), hbase1]
      · rcases rootEF_filterStack_safe n
            (st.prevs.map (fun p => negateCond st ctx p true))
            (.filter (negateCond st ctx clause.head false) base) hsafePrevs with
          hr | hr
        · exact Or.inl hr
        · rw [hr]
          exact Or.inl (rootEF_filter_safe n _ _ (hhead hrec))
    · rw [if_neg hh]
      set base := filterStack
        (clause.body.filterMap (translateConstraintLit ctx st.valueIndex)) op
      rw [show st.prevs.foldl
            (fun op prev => addNegate st ctx clause prev op true) base
          = filterStack (st.prevs.map (fun p => negateCond st ctx p true)) base by
        unfold filterStack
        rw [List.foldl_map]
        apply congrFun
        apply congrFun
        apply congrArg
        funext o p
        exact addNegate_eq_filter st ctx clause p o true]
      have hsafePrevs : ∀ c ∈ st.prevs.map (fun p => negateCond st ctx p true),
          safeCond n c := by
        intro c hc
        rw [List.mem_map] at hc
        obtain ⟨p, hp, hcp⟩ := hc
        rw [← hcp]
        exact hprevs hrec p hp
      constructor
      · rw [eFAP_filterStack_safe n _ _ hsafePrevs, hbase1]
      · rcases rootEF_filterStack_safe n
            (st.prevs.map (fun p => negateCond st ctx p true)) base hsafePrevs with
          hr | hr
        · exact Or.inl hr
        · rw [hr]
          exact hbase2
  · rw [if_neg hrec]
    exact ⟨hbase1, hbase2⟩

end Souffle

namespace Souffle

/-- Negation conditions target delta or concrete relations and are
therefore safe for any new-relation name. -/
theorem negateCond_safe_new (st : TState) (ctx : TranslatorContext)
    (a : Atom) (dflag : Bool) (q : String) :
    safeCond (RelName.new q) (negateCond st ctx a dflag) := by
  intro m hm
  unfold negateCond at hm
  by_cases h : a.arity - ctx.getEvaluationArity a = 0
  · rw [if_pos h] at hm
    have hmeq : (if dflag then getDeltaRelationName a.qname
        else getConcreteRelationName a.qname) = m := by
      injection hm
    rw [← hmeq]
    cases dflag <;> simp [getDeltaRelationName, getConcreteRelationName]
  · rw [if_neg h] at hm
    exact absurd hm (by simp)

/-- A condition produced by the constraint translator is safe for a name
that is not the concrete name of any negated atom it may come from. -/
theorem translateConstraintLit_safe (ctx : TranslatorContext) (vi : ValueIndex)
    (lit : Literal) (c : Condition) (n : RelName)
    (hsome : translateConstraintLit ctx vi lit = some c)
    (hempty : ∀ a, lit = Literal.negation a → RelName.concrete a.qname ≠ n) :
    safeCond n c := by
  cases lit with
  | atom a => exact absurd hsome (by simp [translateConstraintLit])
  | binaryConstraint o l r =>
      simp only [translateConstraintLit] at hsome
      rw [← Option.some.inj hsome]
      intro m hm
      exact absurd hm (by simp)
  | negation a =>
      have hne := hempty a rfl
      simp only [translateConstraintLit] at hsome
      by_cases h : a.arity - ctx.getEvaluationArity a = 0
      · rw [if_pos h] at hsome
        rw [← Option.some.inj hsome]
        intro m hm
        have hmeq : getConcreteRelationName a.qname = m := by
          injection hm
        rw [← hmeq]
        exact hne
      · rw [if_neg h] at hsome
        rw [← Option.some.inj hsome]
        intro m hm
        exact absurd hm (by simp)

/-- The head atom resolves to its concrete name outside recursive mode and
to its new name inside it. -/
theorem getClauseAtomName_head (st : TState) (clause : Clause) :
    (st.isRecursive = false →
      getClauseAtomName st clause clause.head
        = RelName.concrete clause.head.qname)
    ∧ (st.isRecursive = true →
      getClauseAtomName st clause clause.head = RelName.new clause.head.qname) := by
  constructor
  · intro h
    simp [getClauseAtomName, h, getConcreteRelationName]
  · intro h
    simp [getClauseAtomName, h, getNewRelationName]

/-- C6: the rule query of a clause (with no negated body atom sharing the
head's name) carries both the inner emptiness filter immediately wrapping
the projection and the outer emptiness filter at the query root exactly
when the head is nullary; for a head of nonzero arity neither filter is
present. -/
theorem nullary_head_double_emptiness_filter (st : TState)
    (ctx : TranslatorContext) (clause : Clause) (version : Int)
    (hneg : ∀ a, Literal.negation a ∈ clause.body →
      a.qname ≠ clause.head.qname) :
    ∃ t, createRamRuleQuery st ctx clause clause version = .query t
      ∧ (clause.head.arity = 0 →
          rootEmptinessFilter
              (getClauseAtomName
                (indexClause { st with atomOrder := getAtomOrdering clause version }
                  clause) clause clause.head) t = true
          ∧ emptinessFilterAtProject
              (getClauseAtomName
                (indexClause { st with atomOrder := getAtomOrdering clause version }
                  clause) clause clause.head) t = true)
      ∧ (clause.head.arity ≠ 0 →
          rootEmptinessFilter
              (getClauseAtomName
                (indexClause { st with atomOrder := getAtomOrdering clause version }
                  clause) clause clause.head) t = false
          ∧ emptinessFilterAtProject
              (getClauseAtomName
                (indexClause { st with atomOrder := getAtomOrdering clause version }
                  clause) clause clause.head) t = false) := by
  set st1 := indexClause { st with atomOrder := getAtomOrdering clause version }
    clause with hst1
  set n := getClauseAtomName st1 clause clause.head with hn
  have hq : createRamRuleQuery st ctx clause clause version
      = .query (addEntryPoint st1 clause
          (addVariableIntroductions st1 ctx clause clause version
            (addGeneratorLevels st1 ctx clause
              (addBodyLiteralConstraints st1 ctx clause
                (addVariableBindingConstraints st1.valueIndex
                  (createProjection st1 ctx clause)))))) := rfl
  have hsafeLits : ∀ lit ∈ clause.body, ∀ c,
      translateConstraintLit ctx st1.valueIndex lit = some c → safeCond n c := by
    intro lit hlit c hsome
    refine translateConstraintLit_safe ctx st1.valueIndex lit c n hsome ?_
    intro a ha
    by_cases hrec : st1.isRecursive = true
    · rw [hn, (getClauseAtomName_head st1 clause).2 hrec]
      simp
    · rw [hn, (getClauseAtomName_head st1 clause).1 (by simpa using hrec)]
      intro hcon
      have hq : a.qname = clause.head.qname := by
        injection hcon
      exact hneg a (ha ▸ hlit) hq
  have hsafeHead : st1.isRecursive = true →
      safeCond n (negateCond st1 ctx clause.head false) := by
    intro hrec
    rw [hn, (getClauseAtomName_head st1 clause).2 hrec]
    exact negateCond_safe_new st1 ctx clause.head false clause.head.qname
  have hsafePrevs : st1.isRecursive = true →
      ∀ p ∈ st1.prevs, safeCond n (negateCond st1 ctx p true) := by
    intro hrec p _
    rw [hn, (getClauseAtomName_head st1 clause).2 hrec]
    exact negateCond_safe_new st1 ctx p true clause.head.qname
  have hbind := addVariableBindingConstraints_eq_filterStack st1.valueIndex
    (createProjection st1 ctx clause)
  have hbindSafe := bindingConds_safe n st1.valueIndex
  have hbody := addBodyLiteralConstraints_eFAP n st1 ctx clause
    (addVariableBindingConstraints st1.valueIndex (createProjection st1 ctx clause))
    hsafeLits hsafeHead hsafePrevs
  have hgens := addGeneratorLevels_eFAP n st1 ctx clause
    (addBodyLiteralConstraints st1 ctx clause
      (addVariableBindingConstraints st1.valueIndex
        (createProjection st1 ctx clause)))
  have hintros := addVariableIntroductions_eFAP n st1 ctx clause clause version
    (addGeneratorLevels st1 ctx clause
      (addBodyLiteralConstraints st1 ctx clause
        (addVariableBindingConstraints st1.valueIndex
          (createProjection st1 ctx clause))))
  refine ⟨_, hq, ?_, ?_⟩
  · intro h0
    have hbase : emptinessFilterAtProject n (createProjection st1 ctx clause)
        = true := by
      unfold createProjection
      rw [if_pos h0]
      simp [emptinessFilterAtProject, hn]
    have hinner1 : emptinessFilterAtProject n
        (addVariableBindingConstraints st1.valueIndex
          (createProjection st1 ctx clause)) = true := by
      rw [hbind, eFAP_filterStack_safe n _ _ hbindSafe]
      exact hbase
    have hinner2 := hbody.1.trans hinner1
    have hinner3 := hgens.1.trans hinner2
    have hinner4 := hintros.1.trans hinner3
    have hcond : createCondition st1 clause = some (.emptinessCheck n) := by
      simp [createCondition, h0, hn]
    constructor
    · show rootEmptinessFilter n (addEntryPoint st1 clause _) = true
      unfold addEntryPoint
      rw [hcond]
      simp [rootEmptinessFilter]
    · show emptinessFilterAtProject n (addEntryPoint st1 clause _) = true
      unfold addEntryPoint
      rw [hcond]
      exact eFAP_filter_mono n _ _ hinner4
  · intro h0
    have hbase : emptinessFilterAtProject n (createProjection st1 ctx clause)
        = false := by
      unfold createProjection
      rw [if_neg h0]
      rfl
    have hbaseRoot : rootEmptinessFilter n (createProjection st1 ctx clause)
        = false := by
      unfold createProjection
      rw [if_neg h0]
      rfl
    have hinner1 : emptinessFilterAtProject n
        (addVariableBindingConstraints st1.valueIndex
          (createProjection st1 ctx clause)) = false := by
      rw [hbind, eFAP_filterStack_safe n _ _ hbindSafe]
      exact hbase
    have hroot1 : rootEmptinessFilter n
        (addVariableBindingConstraints st1.valueIndex
          (createProjection st1 ctx clause)) = false := by
      rw [hbind]
      rcases rootEF_filterStack_safe n (bindingConds st1.valueIndex)
          (createProjection st1 ctx clause) hbindSafe with hr | hr
      · exact hr
      · rw [hr]
        exact hbaseRoot
    have hinner2 := hbody.1.trans hinner1
    have hroot2 : rootEmptinessFilter n
        (addBodyLiteralConstraints st1 ctx clause
          (addVariableBindingConstraints st1.valueIndex
            (createProjection st1 ctx clause))) = false := by
      rcases hbody.2 with hr | hr
      · exact hr
      · rw [hr]
        exact hroot1
    have hinner3 := hgens.1.trans hinner2
    have hroot3 : rootEmptinessFilter n
        (addGeneratorLevels st1 ctx clause
          (addBodyLiteralConstraints st1 ctx clause
            (addVariableBindingConstraints st1.valueIndex
              (createProjection st1 ctx clause)))) = false := by
      rcases hgens.2 with hr | hr
      · exact hr
      · rw [hr]
        exact hroot2
    have hinner4 := hintros.1.trans hinner3
    have hroot4 : rootEmptinessFilter n
        (addVariableIntroductions st1 ctx clause clause version
          (addGeneratorLevels st1 ctx clause
            (addBodyLiteralConstraints st1 ctx clause
              (addVariableBindingConstraints st1.valueIndex
                (createProjection st1 ctx clause))))) = false := by
      rcases hintros.2 with hr | hr
      · exact hr
      · rw [hr]
        exact hroot3
    have hcond : createCondition st1 clause = none := by
      simp [createCondition, h0]
    constructor
    · show rootEmptinessFilter n (addEntryPoint st1 clause _) = false
      unfold addEntryPoint
      rw [hcond]
      exact hroot4
    · show emptinessFilterAtProject n (addEntryPoint st1 clause _) = false
      unfold addEntryPoint
      rw [hcond]
      exact hinner4

end Souffle

namespace Souffle

/-- Witness for C6 on `p() :- q(x).`: the emitted query has the outer
emptiness filter on p at the root and the inner emptiness filter on p
immediately wrapping the projection. -/
theorem nullary_head_double_emptiness_filter_witness :
    ∃ t, createRamRuleQuery ({} : TState) { getEvaluationArity := fun _ => 0 }
        { head := Atom.mk "p" 0 [],
          body := [Literal.atom (Atom.mk "q" 1 [Argument.var "x"])] }
        { head := Atom.mk "p" 0 [],
          body := [Literal.atom (Atom.mk "q" 1 [Argument.var "x"])] } 0
      = .query t
    ∧ rootEmptinessFilter (.concrete "p") t = true
    ∧ emptinessFilterAtProject (.concrete "p") t = true := by
  obtain ⟨t, hq, hpos, -⟩ := nullary_head_double_emptiness_filter
    ({} : TState) { getEvaluationArity := fun _ => 0 }
    { head := Atom.mk "p" 0 [],
      body := [Literal.atom (Atom.mk "q" 1 [Argument.var "x"])] } 0
    (by
      intro a ha
      simp at ha)
  obtain ⟨h1, h2⟩ := hpos rfl
  exact ⟨t, hq, h1, h2⟩

end Souffle
